import Mathlib

/-!
# Verification of the Zarf package engine against its specification

This file shallowly embeds the parts of the Zarf package engine that the
verified claims talk about:

* the in-cluster deployment record store (`src/pkg/cluster`:
  `PackageSecretNeedsWait`, `RecordPackageDeployment`,
  `RecordPackageDeploymentAndWait`);
* helm chart generation from raw manifests (`src/internal/packager/helm`:
  `NewFromZarfManifest`), together with a bytewise SHA-1;
* package metadata loading (`src/pkg/packager/sources`:
  `TarballSource.LoadPackageMetadata`, `OCISource.LoadPackageMetadata`);
* split tarball handling (`utils.SplitFile`, `SplitTarballSource.Collect`),
  together with a bytewise SHA-256;
* text templating (`utils.ReplaceTextTemplate`);
* partial OCI pulls (`oci.LayersFromRequestedComponents`, `oci.PullPackage`).

Go byte slices are modelled as `List Nat` (each entry a byte value), Go
strings as Lean `String` or `List Char`, Go maps as association lists
(iteration order over Go maps is unspecified; the embedding fixes insertion
order, and all theorems proved about map-derived data are order-insensitive),
and fallible operations as `Except String` / `Option`.
-/

namespace Zarf

/-! ## Deployment records (package cluster, src/pkg/packager/creator/compose.go)

The data model follows `types.DeployedPackage` and `types.Webhook`.  JSON
round-trips through the backing cluster secret are modelled as the identity.
-/

/-- Webhook lifecycle states (`types.WebhookStatus`). -/
inductive WebhookStatus where
  | succeeded
  | failed
  | running
  | removing
deriving DecidableEq, Repr

/-- `types.Webhook`: status plus the per-hook wait duration. -/
structure Webhook where
  status : WebhookStatus
  waitDurationSeconds : Nat
deriving DecidableEq, Repr

/-- The package metadata fields used by the deployment-record code
(`pkg.Metadata.Name` and the YOLO flag). -/
structure PackageMetadata where
  name : String
  yolo : Bool
deriving DecidableEq, Repr

/-- The embedded package definition carried inside a deployment record
(`DeployedPackage.Data`), restricted to the fields this code inspects. -/
structure ZarfPackageData where
  metadata : PackageMetadata
deriving DecidableEq, Repr

/-- `types.InstalledChart`, restricted to the connect strings that
`RecordPackageDeployment` merges.  A connect string is modelled as its
payload string. -/
structure InstalledChart where
  connectStrings : List (String × String)
deriving DecidableEq, Repr

/-- `types.DeployedComponent`, restricted to the fields used here. -/
structure DeployedComponent where
  name : String
  installedCharts : List InstalledChart
deriving DecidableEq, Repr

/-- `types.DeployedPackage`: the JSON record stored in the per-package
cluster secret.  `componentWebhooks` is the map
`component → hookName → Webhook`, modelled as nested association lists. -/
structure DeployedPackage where
  name : String
  cliVersion : String
  data : ZarfPackageData
  deployedComponents : List DeployedComponent
  connectStrings : List (String × String)
  generation : Nat
  componentWebhooks : List (String × List (String × Webhook))
deriving DecidableEq, Repr

/-- Association-list lookup, mirroring a Go map read. -/
def alookup {α : Type} (m : List (String × α)) (k : String) : Option α :=
  (m.find? (fun p => p.1 = k)).map (fun p => p.2)

/-- `Cluster.PackageSecretNeedsWait` (package cluster, src/pkg/packager/creator/compose.go).  Returns
`(needsWait, waitSeconds, hookName)` for the given component.  The
deployed-package argument is `Option`al because the caller may hold `nil`. -/
def packageSecretNeedsWait (deployedPackage : Option DeployedPackage)
    (componentName : String) (skipWebhooks : Bool) : Bool × Nat × String :=
  -- Skip checking webhook status when '--skip-webhooks' is given and for YOLO packages
  match deployedPackage with
  | none => (false, 0, "")
  | some pkg =>
    if skipWebhooks || pkg.data.metadata.yolo then (false, 0, "")
    else
      match alookup pkg.componentWebhooks componentName with
      | none => (false, 0, "")  -- component not found, no need to wait
      | some hookMap =>
        -- look for any "Running" webhook for the component
        match hookMap.find? (fun h => h.2.status = WebhookStatus.running) with
        | some h => (true, h.2.waitDurationSeconds, h.1)
        | none => (false, 0, "")

/-- Go map assignment `m[k] = v` on an association list: replace in place if
the key exists, append otherwise. -/
def mapInsert (m : List (String × String)) (k v : String) :
    List (String × String) :=
  if m.any (fun p => p.1 = k) then
    m.map (fun p => if p.1 = k then (k, v) else p)
  else m ++ [(k, v)]

/-- The connect-string merge inside `RecordPackageDeployment`: every
installed chart's connect strings are written into one map. -/
def mergeConnectStrings (components : List DeployedComponent) :
    List (String × String) :=
  components.foldl
    (fun acc comp =>
      comp.installedCharts.foldl
        (fun acc chart =>
          chart.connectStrings.foldl (fun acc kv => mapInsert acc kv.1 kv.2) acc)
        acc)
    []

/-- `Cluster.RecordPackageDeployment` (package cluster, src/pkg/packager/creator/compose.go), as the pure
record construction it performs.  `existing` is the result of
`GetDeployedPackage` for the same package name (`none` when that lookup
errors), `cliVersion` stands for the global `config.CLIVersion`.  The
marshal/unmarshal round-trip through the secret is the identity. -/
def recordPackageDeployment (existing : Option DeployedPackage)
    (cliVersion : String) (pkg : ZarfPackageData)
    (components : List DeployedComponent) (generation : Nat) :
    DeployedPackage :=
  { name := pkg.metadata.name
    cliVersion := cliVersion
    data := pkg
    deployedComponents := components
    connectStrings := mergeConnectStrings components
    generation := generation
    componentWebhooks :=
      match existing with
      | some e => e.componentWebhooks
      | none => [] }

/-- `wait.PollUntilContextTimeout` with `immediate = false`: the condition
is invoked until it reports done, errors, or the deadline passes.  `fuel`
is the number of ticks the wait duration allows; running out of fuel is the
context-deadline error. -/
def pollUntilContextTimeout {σ : Type} (fuel : Nat) (step : σ → Bool × σ)
    (s : σ) : Except String σ :=
  match fuel with
  | 0 => .error "context deadline exceeded"
  | n + 1 =>
    let r := step s
    if r.1 then .ok r.2 else pollUntilContextTimeout n step r.2

/-- The condition function passed to `wait.PollUntilContextTimeout` by
`RecordPackageDeploymentAndWait` (src/pkg/packager/creator/compose.go lines 417-428).
The state is the tick counter plus the current `deployedPackage`;
`refetch i` models what `GetDeployedPackage` returns on the i-th poll.
Note that the source returns `true, nil` on *both* branches of the
`packageNeedsWait` test, so the step reports done unconditionally. -/
def recordAndWaitBody (refetch : Nat → DeployedPackage)
    (componentName : String) (skipWebhooks : Bool) :
    Nat × DeployedPackage → Bool × (Nat × DeployedPackage) :=
  fun st =>
    let pkg := refetch st.1
    let needs := (packageSecretNeedsWait (some pkg) componentName skipWebhooks).1
    if !needs then (true, (st.1 + 1, pkg)) else (true, (st.1 + 1, pkg))

/-- `Cluster.RecordPackageDeploymentAndWait` (package cluster, src/pkg/packager/creator/compose.go):
records the deployment, then — when the freshly recorded package still has a
running webhook for the component — enters the polling loop. -/
def recordPackageDeploymentAndWait (existing : Option DeployedPackage)
    (cliVersion : String) (pkg : ZarfPackageData)
    (components : List DeployedComponent) (generation : Nat)
    (componentName : String) (skipWebhooks : Bool)
    (refetch : Nat → DeployedPackage) (fuel : Nat) :
    Except String DeployedPackage :=
  let deployedPackage := recordPackageDeployment existing cliVersion pkg components generation
  let needs := (packageSecretNeedsWait (some deployedPackage) componentName skipWebhooks).1
  if !needs then .ok deployedPackage
  else
    (pollUntilContextTimeout fuel
        (recordAndWaitBody refetch componentName skipWebhooks)
        (0, deployedPackage)).map (fun st => st.2)

/-! ## 32-bit arithmetic and hashes

`crypto/sha1` and `crypto/sha256` are Go standard-library collaborators of
the claims about chart naming and split tarballs.  They are embedded as
executable functions over byte lists (`List Nat`), with 32-bit words as
naturals reduced mod 2^32. -/

/-- Reduce a natural to a 32-bit word. -/
def mask32 (x : Nat) : Nat := x % 4294967296

/-- 32-bit rotate left. -/
def rotl32 (x n : Nat) : Nat := mask32 ((x <<< n) ||| (x >>> (32 - n)))

/-- 32-bit rotate right. -/
def rotr32 (x n : Nat) : Nat := mask32 ((x >>> n) ||| (x <<< (32 - n)))

/-- Big-endian bytes of a 32-bit word. -/
def toBytesBE (w : Nat) : List Nat :=
  [w / 16777216 % 256, w / 65536 % 256, w / 256 % 256, w % 256]

/-- Big-endian word from four bytes. -/
def wordBE (a b c d : Nat) : Nat := ((a * 256 + b) * 256 + c) * 256 + d

/-- Big-endian 64-bit byte encoding of a natural (the length field of the
SHA padding). -/
def toBytes64BE (w : Nat) : List Nat :=
  [w / 72057594037927936 % 256, w / 281474976710656 % 256,
   w / 1099511627776 % 256, w / 4294967296 % 256,
   w / 16777216 % 256, w / 65536 % 256, w / 256 % 256, w % 256]

/-- The lowercase hexadecimal digit for a nibble: `0`-`9` are code points
48-57 and `a`-`f` are code points 97-102. -/
def hexDigit (n : Nat) : Char :=
  if n < 10 then Char.ofNat (48 + n) else Char.ofNat (87 + n)

/-- Lowercase hex encoding of a byte list (Go's `%x` / `hex.EncodeToString`). -/
def hexEncode (bs : List Nat) : String :=
  String.mk (bs.foldr (fun b acc =>
    hexDigit (b / 16 % 16) :: hexDigit (b % 16) :: acc) [])

/-- Merkle–Damgård padding shared by SHA-1 and SHA-256: append `0x80`, zero
bytes up to 56 mod 64, then the bit length as a 64-bit big-endian number. -/
def shaPad (msg : List Nat) : List Nat :=
  msg ++ 128 :: List.replicate ((119 - msg.length % 64) % 64) 0
    ++ toBytes64BE (msg.length * 8)

/-- Split a list into chunks of `n` elements (the loop of `utils.SplitFile`;
also used to cut hash input into 64-byte blocks and blocks into words).
For `n = 0` the Go loop never terminates; the model returns `[]` there and
every theorem about splitting assumes a positive chunk size. -/
def splitChunksGo (n : Nat) : Nat → List Nat → List (List Nat)
  | _, [] => []
  | 0, _ :: _ => []
  | fuel + 1, x :: xs =>
    if n = 0 then []
    else (x :: xs).take n :: splitChunksGo n fuel ((x :: xs).drop n)

/-- Split a list into chunks of `n` elements (the loop of `utils.SplitFile`;
also used to cut hash input into 64-byte blocks and blocks into words).
The loop consumes at least one element per iteration, so `data.length` is
enough fuel for `splitChunksGo`.  For `n = 0` the Go loop never terminates;
the model returns `[]` there and every theorem about splitting assumes a
positive chunk size. -/
def splitChunks (data : List Nat) (n : Nat) : List (List Nat) :=
  splitChunksGo n data.length data

/-- The 64-byte blocks of the padded message, as 16-word lists. -/
def shaBlocks (msg : List Nat) : List (List Nat) :=
  (splitChunks (shaPad msg) 64).map (fun block =>
    (splitChunks block 4).map (fun w =>
      wordBE (w.getD 0 0) (w.getD 1 0) (w.getD 2 0) (w.getD 3 0)))

/-- SHA-1 working state. -/
structure Sha1State where
  a : Nat
  b : Nat
  c : Nat
  d : Nat
  e : Nat
deriving DecidableEq, Repr

/-- SHA-1 message schedule: extend the 16 block words to 80. -/
def sha1Extend (fuel : Nat) (ws : List Nat) : List Nat :=
  match fuel with
  | 0 => ws
  | k + 1 =>
    let i := ws.length
    let w := rotl32 (((ws.getD (i - 3) 0 ^^^ ws.getD (i - 8) 0)
      ^^^ ws.getD (i - 14) 0) ^^^ ws.getD (i - 16) 0) 1
    sha1Extend k (ws ++ [w])

/-- One SHA-1 round: the round function and constant depend on the phase. -/
def sha1Round (i : Nat) (w : Nat) (st : Sha1State) : Sha1State :=
  let f :=
    if i < 20 then ((st.b &&& st.c) ||| ((4294967295 - st.b) &&& st.d), 1518500249)
    else if i < 40 then ((st.b ^^^ st.c) ^^^ st.d, 1859775393)
    else if i < 60 then
      (((st.b &&& st.c) ||| (st.b &&& st.d)) ||| (st.c &&& st.d), 2400959708)
    else ((st.b ^^^ st.c) ^^^ st.d, 3395469782)
  let temp := mask32 (rotl32 st.a 5 + f.1 + st.e + f.2 + w)
  ⟨temp, st.a, rotl32 st.b 30, st.c, st.d⟩

/-- SHA-1 compression of one block into the running state. -/
def sha1Compress (st : Sha1State) (block : List Nat) : Sha1State :=
  let ws := sha1Extend 64 block
  let r := (List.range 80).foldl (fun s i => sha1Round i (ws.getD i 0) s) st
  ⟨mask32 (st.a + r.a), mask32 (st.b + r.b), mask32 (st.c + r.c),
   mask32 (st.d + r.d), mask32 (st.e + r.e)⟩

/-- SHA-1 digest of a byte list (Go `crypto/sha1`). -/
def sha1 (msg : List Nat) : List Nat :=
  let st := (shaBlocks msg).foldl sha1Compress
    ⟨1732584193, 4023233417, 2562383102, 271733878, 3285377520⟩
  toBytesBE st.a ++ toBytesBE st.b ++ toBytesBE st.c ++ toBytesBE st.d
    ++ toBytesBE st.e

/-- The SHA-256 round constants. -/
def sha256K : List Nat :=
  [1116352408, 1899447441, 3049323471, 3921009573, 961987163, 1508970993,
   2453635748, 2870763221, 3624381080, 310598401, 607225278, 1426881987,
   1925078388, 2162078206, 2614888103, 3248222580, 3835390401, 4022224774,
   264347078, 604807628, 770255983, 1249150122, 1555081692, 1996064986,
   2554220882, 2821834349, 2952996808, 3210313671, 3336571891, 3584528711,
   113926993, 338241895, 666307205, 773529912, 1294757372, 1396182291,
   1695183700, 1986661051, 2177026350, 2456956037, 2730485921, 2820302411,
   3259730800, 3345764771, 3516065817, 3600352804, 4094571909, 275423344,
   430227734, 506948616, 659060556, 883997877, 958139571, 1322822218,
   1537002063, 1747873779, 1955562222, 2024104815, 2227730452, 2361852424,
   2428436474, 2756734187, 3204031479, 3329325298]

/-- SHA-256 message schedule: extend the 16 block words to 64. -/
def sha256Extend (fuel : Nat) (ws : List Nat) : List Nat :=
  match fuel with
  | 0 => ws
  | k + 1 =>
    let i := ws.length
    let w15 := ws.getD (i - 15) 0
    let w2 := ws.getD (i - 2) 0
    let s0 := (rotr32 w15 7 ^^^ rotr32 w15 18) ^^^ (w15 >>> 3)
    let s1 := (rotr32 w2 17 ^^^ rotr32 w2 19) ^^^ (w2 >>> 10)
    sha256Extend k
      (ws ++ [mask32 (ws.getD (i - 16) 0 + s0 + ws.getD (i - 7) 0 + s1)])

/-- One SHA-256 round on the eight-word working state. -/
def sha256Round (k w : Nat) (st : List Nat) : List Nat :=
  match st with
  | [a, b, c, d, e, f, g, h] =>
    let S1 := (rotr32 e 6 ^^^ rotr32 e 11) ^^^ rotr32 e 25
    let ch := (e &&& f) ^^^ ((4294967295 - e) &&& g)
    let temp1 := mask32 (h + S1 + ch + k + w)
    let S0 := (rotr32 a 2 ^^^ rotr32 a 13) ^^^ rotr32 a 22
    let maj := ((a &&& b) ^^^ (a &&& c)) ^^^ (b &&& c)
    let temp2 := mask32 (S0 + maj)
    [mask32 (temp1 + temp2), a, b, c, mask32 (d + temp1), e, f, g]
  | _ => st

/-- SHA-256 compression of one block into the running state. -/
def sha256Compress (st : List Nat) (block : List Nat) : List Nat :=
  let ws := sha256Extend 48 block
  let r := (List.range 64).foldl
    (fun s i => sha256Round (sha256K.getD i 0) (ws.getD i 0) s) st
  List.zipWith (fun x y => mask32 (x + y)) st r

/-- SHA-256 digest of a byte list (Go `crypto/sha256`). -/
def sha256 (msg : List Nat) : List Nat :=
  let st := (shaBlocks msg).foldl sha256Compress
    [1779033703, 3144134277, 1013904242, 2773480762,
     1359893119, 2600822924, 528734635, 1541459225]
  st.foldr (fun w acc => toBytesBE w ++ acc) []

/-- Hex SHA-256 of a byte list (`fmt.Sprintf("%x", sha256.Sum256(file))`). -/
def sha256Hex (msg : List Nat) : String := hexEncode (sha256 msg)

/-- Bytes of an ASCII string (`[]byte(s)` for the ASCII names used here). -/
def strBytes (s : String) : List Nat := s.data.map Char.toNat

/-- Hex SHA-1 of a string (`hex.EncodeToString(sha1.Sum(nil))` over `[]byte(s)`). -/
def sha1Hex (s : String) : String := hexEncode (sha1 (strBytes s))

/-! ## Raw-manifest chart generation (src/internal/packager/helm/chart.go)

`NewFromZarfManifest` builds a synthetic chart for a raw manifest.  The two
derived names are pure string computations. -/

/-- The synthetic chart name `rawChartName` of `NewFromZarfManifest`:
`raw-<pkg>-<component>-<manifest-name>` (assigned to
`tmpChart.Metadata.Name`). -/
def rawChartName (packageName componentName manifestName : String) : String :=
  "raw-" ++ packageName ++ "-" ++ componentName ++ "-" ++ manifestName

/-- The Helm release name chosen by `NewFromZarfManifest`: the string
`zarf-` followed by the hex SHA-1 of the chart name (the code keeps the
`zarf-` prefix "to match v0.22.x and earlier behavior"). -/
def releaseName (packageName componentName manifestName : String) : String :=
  "zarf-" ++ sha1Hex (rawChartName packageName componentName manifestName)

/-- The first forty characters of a string (the claim's "first 40 hex
characters"). -/
def firstForty (s : String) : String := String.mk (s.data.take 40)

/-- The release name as the claim states it: the first 40 hex characters of
the SHA-1 of the chart name, with no prefix.  Stated from the claim's words
for comparison with `releaseName`. -/
def claimReleaseName (packageName componentName manifestName : String) : String :=
  firstForty (sha1Hex (rawChartName packageName componentName manifestName))

/-! ## Split tarballs (utils.SplitFile, SplitTarballSource.Collect)

`SplitFile` cuts an archive into chunks and reports its SHA-256; `Collect`
reassembles the part files found by the glob.  Part files are modelled as
`(filename, contents)` pairs; the JSON decoding of the metadata part
(`json.Unmarshal` into `types.ZarfSplitPackageData`) is passed in as an
abstract decoder. -/

/-- `utils.SplitFile`: the chunks of the file at the given chunk size plus
the hex SHA-256 of the whole file (computed before splitting). -/
def splitFile (data : List Nat) (chunkSizeBytes : Nat) :
    List (List Nat) × String :=
  (splitChunks data chunkSizeBytes, sha256Hex data)

/-- `types.ZarfSplitPackageData`: the JSON header stored in `.part000`. -/
structure ZarfSplitPackageData where
  count : Nat
  sha256Sum : String
  size : Nat
deriving DecidableEq, Repr

deriving instance DecidableEq for Except

/-- Observable outcome of `SplitTarballSource.Collect`: the reassembled
bytes (or the error), and whether the part files were removed. -/
structure CollectResult where
  result : Except String (List Nat)
  partsRemoved : Bool
deriving DecidableEq, Repr

/-- Byte-wise lexicographic comparison of character lists, as Go compares
strings.  Written over `Char.toNat` so the kernel can evaluate it. -/
def charListLt : List Char → List Char → Bool
  | _, [] => false
  | [], _ :: _ => true
  | a :: as, b :: bs =>
    if a.toNat < b.toNat then true
    else if b.toNat < a.toNat then false
    else charListLt as bs

/-- Go string comparison `a < b`. -/
def strLtB (a b : String) : Bool := charListLt a.data b.data

/-- Strictly ascending name list (the well-formedness of a set of split
part filenames). -/
def namesAscB : List String → Bool
  | [] => true
  | [_] => true
  | a :: b :: rest => strLtB a b && namesAscB (b :: rest)

/-- Insert one part file into a name-sorted list (`sort.Strings`). -/
def insertPart (x : String × List Nat) :
    List (String × List Nat) → List (String × List Nat)
  | [] => [x]
  | y :: ys => if strLtB y.1 x.1 then y :: insertPart x ys else x :: y :: ys

/-- Sort part files by filename (`sort.Strings(fileList)`). -/
def sortParts : List (String × List Nat) → List (String × List Nat)
  | [] => []
  | x :: xs => insertPart x (sortParts xs)

/-- `SplitTarballSource.Collect`: sort the globbed part files by name,
decode the JSON header from the first, check the part count and the
caller-supplied shasum, concatenate the remaining parts in order, verify
the SHA-256 of the result against the header, and only then remove the
parts.  An empty glob result leaves the header at its zero value, so the
final integrity check fails. -/
def collect (decode : List Nat → Option ZarfSplitPackageData)
    (files : List (String × List Nat)) (shasum : String) : CollectResult :=
  match sortParts files with
  | [] =>
    if sha256Hex [] = "" then ⟨.ok [], true⟩
    else ⟨.error "package integrity check failed", false⟩
  | first :: rest =>
    match decode first.2 with
    | none => ⟨.error "unable to unmarshal the package data", false⟩
    | some pkgData =>
      if rest.length ≠ pkgData.count then
        ⟨.error "package is missing parts", false⟩
      else if shasum ≠ "" ∧ pkgData.sha256Sum ≠ shasum then
        ⟨.error "mismatch in CLI options and package metadata", false⟩
      else
        let assembled := (rest.map (fun p => p.2)).flatten
        if sha256Hex assembled ≠ pkgData.sha256Sum then
          ⟨.error "package integrity check failed", false⟩
        else ⟨.ok assembled, true⟩

/-! ## Text templating (utils.ReplaceTextTemplate)

The template regex
`(?P<preTemplate>.*?)(?P<template>%s)(?P<postTemplate>.*)` is instantiated,
as everywhere in this code base (spec §4.5), with a token pattern of the
shape `###<prefix>_<KEY>###`, whose prefix and key characters are uppercase
letters, digits and underscores.  The lazy `.*?` group makes each match the
leftmost token occurrence on the line.  The file is consumed line by line
with `bufio.ScanLines` (split on `\n`, one trailing `\r` stripped) and each
processed line is emitted through `fmt.Sprintln`.  Strings are processed as
`List Char`; for the ASCII inputs of interest a char is a byte. -/

/-- A character allowed inside a template key (`[A-Z0-9_]`). -/
def isTplChar (c : Char) : Bool := c.isUpper || c.isDigit || c == '_'

/-- Match a template token `###KEY###` (nonempty `KEY` over `isTplChar`) at
the head of the line; on success return the token and the rest.  Since `#`
is not a key character the match is deterministic, like the regex. -/
def matchTokenAt (cs : List Char) : Option (List Char × List Char) :=
  match cs with
  | '#' :: '#' :: '#' :: rest =>
    match rest.takeWhile isTplChar, rest.dropWhile isTplChar with
    | [], _ => none
    | key, '#' :: '#' :: '#' :: rest3 =>
      some ('#' :: '#' :: '#' :: (key ++ ['#', '#', '#']), rest3)
    | _, _ => none
  | _ => none

/-- Leftmost token match on a line:
`regexTemplateLine.FindStringSubmatch` giving
`(preTemplate, template, postTemplate)`. -/
def findToken : List Char → Option (List Char × List Char × List Char)
  | [] => none
  | c :: cs =>
    match matchTokenAt (c :: cs) with
    | some r => some ([], r.1, r.2)
    | none =>
      match findToken cs with
      | some r => some (c :: r.1, r.2.1, r.2.2)
      | none => none

/-- `types.VariableType`. -/
inductive VarType where
  | raw
  | file
deriving DecidableEq, Repr

/-- `utils.TextTemplate` (the mapping values of `ReplaceTextTemplate`). -/
structure TextTemplate where
  sensitive : Bool
  autoIndent : Bool
  type : VarType
  value : List Char
deriving DecidableEq, Repr

/-- Template lookup `mappings[templateKey]`.  A key mapped to a nil pointer
behaves exactly like an absent key in the source, so both are `none` here. -/
def lookupTpl (m : List (List Char × TextTemplate)) (tok : List Char) :
    Option TextTemplate :=
  (m.find? (fun e => e.1 == tok)).map (fun e => e.2)

/-- The file system seen by file-typed templates: path →
(`IsTextFile` verdict, contents).  A missing path models an open/read
error. -/
def FileSys : Type := List (List Char × Bool × List Char)

/-- Resolve a template's value: file-typed values are loaded from the file
system and rejected (`none`, the warn-and-skip path) when the file is
missing or not text. -/
def resolveValue (fs : FileSys) (tpl : TextTemplate) : Option (List Char) :=
  match tpl.type with
  | .raw => some tpl.value
  | .file =>
    match (fs.find? (fun e => e.1 == tpl.value)).map (fun e => e.2) with
    | some (true, contents) => some contents
    | _ => none

/-- The autoindent substitution: every `\n` in the value becomes `\n`
followed by `len(preTemplate)` spaces
(`strings.ReplaceAll(value, "\n", "\n" + strings.Repeat(" ", len(preTemplate)))`). -/
def autoIndentValue (n : Nat) : List Char → List Char
  | [] => []
  | c :: cs =>
    (if c == '\n' then '\n' :: List.replicate n ' ' else [c])
      ++ autoIndentValue n cs

/-- The inner `for` loop of `ReplaceTextTemplate` over one scanned line.
Each iteration consumes the leftmost token, so `line.length` bounds the
iteration count and serves as structural fuel. -/
def processLineGo (fs : FileSys) (m : List (List Char × TextTemplate)) :
    Nat → List Char → List Char
  | 0, line => line ++ ['\n']
  | fuel + 1, line =>
    match findToken line with
    | none => line ++ ['\n']  -- no template left: text += fmt.Sprintln(line)
    | some (pre, tok, post) =>
      match lookupTpl m tok with
      | none =>
        -- nil template: value stays templateKey, so the token is re-emitted
        pre ++ tok ++ processLineGo fs m fuel post
      | some tpl =>
        match resolveValue fs tpl with
        | none =>
          -- warn and continue with line = postTemplate (pre is dropped)
          processLineGo fs m fuel post
        | some v =>
          let v' := if tpl.autoIndent then autoIndentValue pre.length v else v
          pre ++ v' ++ processLineGo fs m fuel post

/-- One line of `ReplaceTextTemplate`. -/
def processLine (fs : FileSys) (m : List (List Char × TextTemplate))
    (line : List Char) : List Char :=
  processLineGo fs m line.length line

/-- Drop one trailing carriage return (`dropCR` inside `bufio.ScanLines`). -/
def stripCR (l : List Char) : List Char :=
  match l.getLast? with
  | some '\r' => l.dropLast
  | _ => l

/-- `bufio.ScanLines`: split on `\n` (each token loses one trailing `\r`);
a final segment without `\n` is still a line, and a trailing `\n` does not
produce an extra empty line.  Every step consumes at least one character,
so the content length is enough fuel. -/
def splitLinesGo : Nat → List Char → List (List Char)
  | _, [] => []
  | 0, _ :: _ => []
  | fuel + 1, c :: cs =>
    stripCR ((c :: cs).takeWhile (fun x => !(x == '\n')))
      :: (match (c :: cs).dropWhile (fun x => !(x == '\n')) with
          | [] => []
          | _ :: rest => splitLinesGo fuel rest)

/-- The scanned lines of a file's contents. -/
def splitLines (cs : List Char) : List (List Char) :=
  splitLinesGo cs.length cs

/-- `utils.ReplaceTextTemplate` as a function from file contents to file
contents: scan lines, process each, concatenate the emitted text.
(The `deprecations` argument only produces warnings and does not affect
the output, so it is not modelled.) -/
def replaceTextTemplate (fs : FileSys)
    (m : List (List Char × TextTemplate)) (content : List Char) : List Char :=
  (splitLines content).foldr (fun l acc => processLine fs m l ++ acc) []

/-- Does the text contain a carriage return immediately followed by a line
feed?  (`bufio.ScanLines` normalizes those away, so they are not fixed
points of a rescan.) -/
def hasCRLF : List Char → Bool
  | [] => false
  | c :: cs =>
    match cs with
    | [] => false
    | d :: _ => (c == '\r' && d == '\n') || hasCRLF cs

/-- Does every template token occurring on the line lack a mapping entry?
Fuelled like `processLineGo`. -/
def allTokensUnmappedGo (m : List (List Char × TextTemplate)) :
    Nat → List Char → Bool
  | 0, _ => true
  | fuel + 1, line =>
    match findToken line with
    | none => true
    | some (_, tok, post) =>
      (lookupTpl m tok).isNone && allTokensUnmappedGo m fuel post

/-- Every template token on the line lacks a mapping entry. -/
def allTokensUnmappedB (m : List (List Char × TextTemplate))
    (line : List Char) : Bool :=
  allTokensUnmappedGo m line.length line

/-! ## Partial OCI pulls (src/pkg/oci/pull.go)

`LayersFromRequestedComponents` computes the layer descriptors a partial
pull needs; `PullPackage` adds the always-pull paths and drives `oras.Copy`
with a successor filter over the selected digests.  Descriptors carry the
digest (already in encoded form — dropping the `sha256:` prefix is the only
difference between `Digest.String()` and `Digest.Encoded()`), the size, and
the two annotations the code reads.  The helpers that live outside `src/`
(`Locate`, `isEmptyDescriptor`, the `Fetch*` accessors) are modelled from
the spec (§4.3): layers are titled via the
`org.opencontainers.image.title` annotation with the file's relative path,
`Locate` finds a layer by that title and misses with the zero descriptor,
and `isEmptyDescriptor` recognizes the zero descriptor. -/

/-- An OCI descriptor, restricted to the fields this code reads. -/
structure Descriptor where
  digest : String
  size : Nat
  title : String
  baseImageName : String
deriving DecidableEq, Repr

/-- The zero descriptor (a missed `Locate`). -/
def emptyDescriptor : Descriptor := ⟨"", 0, "", ""⟩

/-- `OrasRemote.isEmptyDescriptor`.  Modelled from the spec: the zero
descriptor has an empty digest and zero size. -/
def Descriptor.isEmpty (d : Descriptor) : Bool :=
  d.digest == "" && d.size == 0

/-- The root `ZarfOCIManifest`: layer descriptors plus the config. -/
structure ZarfOCIManifest where
  layers : List Descriptor
  config : Descriptor
deriving DecidableEq, Repr

/-- `ZarfOCIManifest.Locate`.  Modelled from the spec: find the layer whose
title annotation is the given relative path; the zero descriptor when
absent. -/
def locate (m : ZarfOCIManifest) (path : String) : Descriptor :=
  (m.layers.find? (fun l => l.title == path)).getD emptyDescriptor

/-- `types.ZarfComponent`, restricted to the fields read here. -/
structure ZarfComponent where
  name : String
  required : Bool
  images : List String
deriving DecidableEq, Repr

/-- An OCI image manifest reachable from the images index. -/
structure ImageManifest where
  config : Descriptor
  layers : List Descriptor
deriving DecidableEq, Repr

/-- The remote as `LayersFromRequestedComponents` reads it: the root
manifest (`FetchRoot`), the parsed package definition (`FetchZarfYAML`),
the manifest list of the images index (`FetchImagesIndex`), and the image
manifests by digest (`FetchManifest`, erroring on unknown digests such as
the zero descriptor's). -/
structure OCIRemote where
  root : ZarfOCIManifest
  components : List ZarfComponent
  indexManifests : List Descriptor
  manifests : List (String × ImageManifest)
deriving DecidableEq, Repr

/-- `PackageAlwaysPull = {zarf.yaml, checksums.txt, zarf.yaml.sig}`. -/
def packageAlwaysPull : List String :=
  ["zarf.yaml", "checksums.txt", "zarf.yaml.sig"]

/-- `filepath.Join(config.ZarfComponentsDir, name + ".tar")`. -/
def componentTarPath (name : String) : String :=
  "components/" ++ name ++ ".tar"

/-- `root.indexPath`. -/
def indexJsonPath : String := "images/index.json"

/-- `root.ociLayoutPath`. -/
def ociLayoutPathStr : String := "images/oci-layout"

/-- `filepath.Join(root.imagesBlobsDir, digest.Encoded())`. -/
def blobPath (digest : String) : String :=
  "images/blobs/sha256/" ++ digest

/-- `FetchManifest` on a descriptor: resolved against the remote's stored
manifests by digest. -/
def fetchManifest (r : OCIRemote) (d : Descriptor) :
    Except String ImageManifest :=
  match (r.manifests.find? (fun e => e.1 == d.digest)).map (fun e => e.2) with
  | some man => .ok man
  | none => .error "unable to fetch manifest"

/-- First-occurrence deduplication: the membership content of collecting
into a Go `map` (whose iteration order is unspecified; theorems below are
membership-level only). -/
def dedup (l : List String) : List String :=
  l.foldl (fun acc i => if acc.contains i then acc else acc ++ [i]) []

/-- The components whose images and tarball a partial pull needs: requested
ones and every `required` one. -/
def selectedComponents (r : OCIRemote) (requested : List String) :
    List ZarfComponent :=
  r.components.filter (fun c => requested.contains c.name || c.required)

/-- The image set the selected components reference, deduplicated. -/
def selectedImages (r : OCIRemote) (requested : List String) : List String :=
  dedup (((selectedComponents r requested).map (fun c => c.images)).flatten)

/-- The image's manifest descriptor, found in the images index by the
base-image-name annotation (`helpers.Find`, zero descriptor on a miss). -/
def imageManifestDesc (r : OCIRemote) (image : String) : Descriptor :=
  (r.indexManifests.find? (fun l => l.baseImageName == image)).getD
    emptyDescriptor

/-- The blob descriptors contributed by one image: its manifest blob, its
config blob, and each of its layer blobs, all located in the root by
path.  A failed manifest fetch propagates as the loop's error. -/
def imageBlobDescs (r : OCIRemote) (image : String) :
    Except String (List Descriptor) :=
  match fetchManifest r (imageManifestDesc r image) with
  | .error e => .error e
  | .ok manifest =>
    .ok (locate r.root (blobPath (imageManifestDesc r image).digest)
      :: locate r.root (blobPath manifest.config.digest)
      :: manifest.layers.map (fun l => locate r.root (blobPath l.digest)))

/-- `OrasRemote.LayersFromRequestedComponents`. -/
def layersFromRequestedComponents (r : OCIRemote)
    (requestedComponents : List String) : Except String (List Descriptor) :=
  -- every requested name must exist (`helpers.Find` returns the zero
  -- component, whose name is "", on a miss)
  match requestedComponents.find? (fun name =>
      ((r.components.find? (fun c => c.name == name)).getD
        ⟨"", false, []⟩).name == "") with
  | some name => .error ("component " ++ name ++ " does not exist in this package")
  | none =>
    let selected := selectedComponents r requestedComponents
    let images := selectedImages r requestedComponents
    let tarLayers := selected.map (fun c => locate r.root (componentTarPath c.name))
    let sbomsDescriptor := locate r.root "sboms.tar"
    let layers := tarLayers
      ++ (if sbomsDescriptor.isEmpty then [] else [sbomsDescriptor])
    if images.isEmpty then .ok layers
    else
      let layers := layers
        ++ [locate r.root indexJsonPath, locate r.root ociLayoutPathStr]
      (images.foldlM (fun acc image => do
          let descs ← imageBlobDescs r image
          return acc ++ descs) ([] : List Descriptor)).map
        (fun imageLayers => layers ++ imageLayers)

/-- The always-pull augmentation loop at the top of `PullPackage`: each of
the three paths is appended (via `Locate`) unless a layer with that title
is already listed. -/
def addAlwaysPull (r : OCIRemote) (layersToPull : List Descriptor) :
    List Descriptor :=
  packageAlwaysPull.foldl (fun acc path =>
    if acc.any (fun layer => layer.title == path) then acc
    else acc ++ [locate r.root path]) layersToPull

/-- What a pull returns and fetches: the partial paths handed to
`SetFromLayers`, and the blobs `oras.Copy` downloads. -/
structure PullResult where
  partialPaths : List String
  downloaded : List Descriptor
deriving DecidableEq, Repr

/-- `OrasRemote.PullPackage`.  On a partial pull (a nonempty layer list)
the always-pull paths are appended, the titled paths become the partial
path list, and `oras.Copy` runs with a `FindSuccessors` filter that keeps
exactly the successor blobs (the root's config and layers) whose digest is
among the selected nonempty digests; nothing else is downloaded.  On a full
pull every blob is fetched. -/
def pullPackage (r : OCIRemote) (layersToPull : List Descriptor) : PullResult :=
  if layersToPull.isEmpty then
    ⟨[], r.root.config :: r.root.layers⟩
  else
    let full := addAlwaysPull r layersToPull
    let partialPaths := dedup (full.filterMap (fun l =>
      if l.title == "" then none else some l.title))
    let shas := full.filterMap (fun l =>
      if l.digest == "" then none else some l.digest)
    ⟨partialPaths,
     (r.root.config :: r.root.layers).filter (fun b => shas.contains b.digest)⟩

/-- The layer set exactly as the claim words it (stated from the claim for
comparison with the code): component tarballs of requested and required
components, image manifest/config/layer blobs of their images, the
`oci-layout` and `index.json` entries unconditionally, and `sboms.tar` when
present. -/
def claimLayerSet (r : OCIRemote) (requested : List String)
    (d : Descriptor) : Bool :=
  (selectedComponents r requested).any
      (fun c => d == locate r.root (componentTarPath c.name))
  || (!(locate r.root "sboms.tar").isEmpty && d == locate r.root "sboms.tar")
  || d == locate r.root indexJsonPath
  || d == locate r.root ociLayoutPathStr
  || (selectedComponents r requested).any (fun c => c.images.any (fun img =>
      match imageBlobDescs r img with
      | .ok descs => descs.contains d
      | .error _ => false))

/-- The amended layer set: as the claim, except that `index.json` and
`oci-layout` are included only when the selected components reference at
least one image. -/
def amendedLayerSet (r : OCIRemote) (requested : List String)
    (d : Descriptor) : Bool :=
  (selectedComponents r requested).any
      (fun c => d == locate r.root (componentTarPath c.name))
  || (!(locate r.root "sboms.tar").isEmpty && d == locate r.root "sboms.tar")
  || ((selectedComponents r requested).any (fun c => !c.images.isEmpty)
      && (d == locate r.root indexJsonPath
          || d == locate r.root ociLayoutPathStr))
  || (selectedComponents r requested).any (fun c => c.images.any (fun img =>
      match imageBlobDescs r img with
      | .ok descs => descs.contains d
      | .error _ => false))

/-! ## Package metadata loading (src/pkg/packager/sources)

`TarballSource.LoadPackageMetadata` and `OCISource.LoadPackageMetadata`
sequence extraction, YAML parsing, integrity validation, signature
validation and SBOM unpacking.  The collaborators (`archiver`,
`ValidatePackageIntegrity`, `ValidatePackageSignature`, tar unpacking) are
embedded as abstract outcomes; the control flow around them — in
particular the `ErrPkgSigButNoKey` downgrade — is the code under test. -/

/-- Outcome of `ValidatePackageSignature`: success, the sentinel
`ErrPkgSigButNoKey` ("package is signed but no key was provided"), or any
other failure. -/
inductive SigResult where
  | ok
  | errNoKey
  | err (msg : String)
deriving DecidableEq, Repr

/-- The outcomes of the steps a `LoadPackageMetadata` call performs, in
source order. -/
structure MetadataLoadEnv where
  /-- `archiver.Extract` of the always-pull paths (tarball source) or
  `PullPackagePaths` (OCI source) succeeded. -/
  extractOk : Bool
  /-- The pulled layout contains `sboms.tar` (OCI source checks this when
  an SBOM was requested). -/
  sbomPresent : Bool
  /-- `utils.ReadYaml` of `zarf.yaml` succeeded. -/
  readYamlOk : Bool
  /-- `ValidatePackageIntegrity` (checksums) succeeded. -/
  integrityOk : Bool
  /-- Result of `ValidatePackageSignature`. -/
  sig : SigResult
  /-- `dst.SBOMs.Unarchive()` succeeded. -/
  sbomUnarchiveOk : Bool
deriving DecidableEq, Repr

/-- Shared tail of both loaders: signature check with the
`skipValidation` downgrade, then SBOM unpacking.  Mirrors
src/pkg/packager/sources lines 131-144 and 373-386. -/
def sigThenUnarchive (env : MetadataLoadEnv) (skipValidation : Bool) :
    Except String Unit :=
  match env.sig with
  | .ok =>
    if env.sbomUnarchiveOk then .ok () else .error "unable to unarchive SBOMs"
  | .errNoKey =>
    if skipValidation then
      -- warn: "The package was signed but no public key was provided ..."
      if env.sbomUnarchiveOk then .ok () else .error "unable to unarchive SBOMs"
    else .error "package is signed but no key was provided"
  | .err msg => .error msg

/-- `TarballSource.LoadPackageMetadata`. -/
def tarballLoadPackageMetadata (env : MetadataLoadEnv)
    (_wantSBOM skipValidation : Bool) : Except String Unit :=
  if !env.extractOk then .error "unable to extract the package" else
  if !env.readYamlOk then .error "unable to read zarf.yaml" else
  if !env.integrityOk then .error "package integrity check failed" else
  sigThenUnarchive env skipValidation

/-- `OCISource.LoadPackageMetadata`.  Unlike the tarball source it rejects
a requested-but-absent SBOM before parsing the definition. -/
def ociLoadPackageMetadata (env : MetadataLoadEnv)
    (wantSBOM skipValidation : Bool) : Except String Unit :=
  if !env.extractOk then .error "unable to pull the package" else
  if !env.sbomPresent && wantSBOM then .error "package does not contain SBOMs" else
  if !env.readYamlOk then .error "unable to read zarf.yaml" else
  if !env.integrityOk then .error "package integrity check failed" else
  sigThenUnarchive env skipValidation

end Zarf

namespace Zarf

/-! ### C7 -/

/-- C7: for both the tarball and the OCI source, `LoadPackageMetadata`
succeeds exactly when every step succeeds and the signature either
verifies or failed with precisely `ErrPkgSigButNoKey` while
`skipValidation` is set (the downgraded-to-warning case); every other
signature failure — and every integrity failure — is returned regardless
of `skipValidation`. -/
theorem loadPackageMetadata_signature_policy (env : MetadataLoadEnv)
    (wantSBOM skipValidation : Bool) :
    (tarballLoadPackageMetadata env wantSBOM skipValidation = .ok () ↔
      env.extractOk = true ∧ env.readYamlOk = true ∧ env.integrityOk = true ∧
      env.sbomUnarchiveOk = true ∧
      (env.sig = .ok ∨ (env.sig = .errNoKey ∧ skipValidation = true)))
    ∧
    (ociLoadPackageMetadata env wantSBOM skipValidation = .ok () ↔
      env.extractOk = true ∧ (wantSBOM = true → env.sbomPresent = true) ∧
      env.readYamlOk = true ∧ env.integrityOk = true ∧
      env.sbomUnarchiveOk = true ∧
      (env.sig = .ok ∨ (env.sig = .errNoKey ∧ skipValidation = true))) := by
  constructor
  · unfold tarballLoadPackageMetadata sigThenUnarchive
    rcases env with ⟨ex, sp, ry, io, sig, su⟩
    cases sig <;> cases ex <;> cases ry <;> cases io <;> cases su <;>
      cases skipValidation <;> simp
  · unfold ociLoadPackageMetadata sigThenUnarchive
    rcases env with ⟨ex, sp, ry, io, sig, su⟩
    cases sig <;> cases ex <;> cases sp <;> cases ry <;> cases io <;>
      cases su <;> cases skipValidation <;> cases wantSBOM <;> simp

/-- Witness for C7: a signed-but-no-key package loads successfully from a
tarball once `skipValidation` is set. -/
theorem loadPackageMetadata_signature_policy_witness :
    tarballLoadPackageMetadata
      ⟨true, true, true, true, SigResult.errNoKey, true⟩ false true = .ok () :=
  ((loadPackageMetadata_signature_policy
      ⟨true, true, true, true, SigResult.errNoKey, true⟩ false true).1).mpr
    ⟨rfl, rfl, rfl, rfl, Or.inr ⟨rfl, rfl⟩⟩

/-! ### C1 -/

/-- Is an `Except` value a success? -/
def isOkB {α : Type} (e : Except String α) : Bool :=
  match e with
  | .ok _ => true
  | .error _ => false

theorem mem_foldl_dedup (x : String) :
    ∀ (l acc : List String),
      (x ∈ l.foldl (fun acc i => if acc.contains i then acc else acc ++ [i]) acc)
        ↔ x ∈ acc ∨ x ∈ l := by
  intro l
  induction l with
  | nil => simp
  | cons a l ih =>
    intro acc
    simp only [List.foldl_cons]
    by_cases h : acc.contains a
    · rw [if_pos h, ih acc]
      have ha : a ∈ acc := List.elem_iff.mp h
      constructor
      · rintro (hx | hx)
        · exact Or.inl hx
        · exact Or.inr (List.mem_cons_of_mem a hx)
      · rintro (hx | hx)
        · exact Or.inl hx
        · rcases List.mem_cons.mp hx with rfl | hx
          · exact Or.inl ha
          · exact Or.inr hx
    · rw [if_neg h, ih (acc ++ [a])]
      simp [List.mem_append, List.mem_cons, or_assoc]

theorem mem_dedup (x : String) (l : List String) : x ∈ dedup l ↔ x ∈ l := by
  unfold dedup
  rw [mem_foldl_dedup x l []]
  simp

theorem mem_selectedImages (r : OCIRemote) (requested : List String)
    (img : String) :
    img ∈ selectedImages r requested
      ↔ ∃ c ∈ selectedComponents r requested, img ∈ c.images := by
  rw [selectedImages, mem_dedup, List.mem_flatten]
  constructor
  · rintro ⟨s, hs, himg⟩
    obtain ⟨c, hc, rfl⟩ := List.mem_map.mp hs
    exact ⟨c, hc, himg⟩
  · rintro ⟨c, hc, himg⟩
    exact ⟨c.images, List.mem_map.mpr ⟨c, hc, rfl⟩, himg⟩

theorem selectedImages_isEmpty_iff (r : OCIRemote) (requested : List String) :
    (selectedImages r requested).isEmpty = true
      ↔ (selectedComponents r requested).any (fun c => !c.images.isEmpty)
          = false := by
  rw [List.isEmpty_iff, List.eq_nil_iff_forall_not_mem, List.any_eq_false]
  constructor
  · intro h c hc
    cases himg : c.images with
    | nil => simp [himg]
    | cons i t =>
      exfalso
      exact h i ((mem_selectedImages r requested i).mpr
        ⟨c, hc, by rw [himg]; exact List.mem_cons_self i t⟩)
  · intro h img himg
    obtain ⟨c, hc, himg'⟩ := (mem_selectedImages r requested img).mp himg
    have hbe := h c hc
    have hnil : c.images = [] := by
      rcases hcase : c.images with _ | ⟨i, t⟩
      · rfl
      · rw [hcase] at hbe
        simp at hbe
    rw [hnil] at himg'
    exact absurd himg' (List.not_mem_nil img)

theorem foldlM_imageBlobs (r : OCIRemote) :
    ∀ (imgs : List String) (acc : List Descriptor),
      (∀ img ∈ imgs, isOkB (imageBlobDescs r img) = true) →
      ∃ ls, (imgs.foldlM (fun acc image => do
          let descs ← imageBlobDescs r image
          return acc ++ descs) acc) = .ok ls
        ∧ ∀ d, d ∈ ls ↔ d ∈ acc ∨ ∃ img ∈ imgs, ∃ ds,
            imageBlobDescs r img = .ok ds ∧ d ∈ ds := by
  intro imgs
  induction imgs with
  | nil =>
    intro acc _
    exact ⟨acc, rfl, by simp⟩
  | cons i is ih =>
    intro acc hok
    obtain ⟨ds, hds⟩ : ∃ ds, imageBlobDescs r i = .ok ds := by
      have h := hok i (List.mem_cons_self i is)
      cases hcase : imageBlobDescs r i with
      | ok ds => exact ⟨ds, rfl⟩
      | error e => rw [hcase] at h; simp [isOkB] at h
    obtain ⟨ls, hls, hmem⟩ :=
      ih (acc ++ ds) (fun img h => hok img (List.mem_cons_of_mem i h))
    refine ⟨ls, ?_, ?_⟩
    · rw [List.foldlM_cons]
      show (imageBlobDescs r i >>= fun descs => pure (acc ++ descs)) >>= _ = _
      rw [hds]
      exact hls
    · intro d
      rw [hmem d]
      constructor
      · rintro (hd | ⟨img, himg, ds', hds', hd⟩)
        · rcases List.mem_append.mp hd with hd | hd
          · exact Or.inl hd
          · exact Or.inr ⟨i, List.mem_cons_self i is, ds, hds, hd⟩
        · exact Or.inr ⟨img, List.mem_cons_of_mem i himg, ds', hds', hd⟩
      · rintro (hd | ⟨img, himg, ds', hds', hd⟩)
        · exact Or.inl (List.mem_append.mpr (Or.inl hd))
        · rcases List.mem_cons.mp himg with rfl | himg
          · rw [hds] at hds'
            obtain rfl : ds = ds' := by
              simpa using hds'
            exact Or.inl (List.mem_append.mpr (Or.inr hd))
          · exact Or.inr ⟨img, himg, ds', hds', hd⟩

theorem locate_title (m : ZarfOCIManifest) (path : String) :
    (locate m path).title = path ∨ (locate m path).title = "" := by
  unfold locate
  cases hf : m.layers.find? (fun l => l.title == path) with
  | none => exact Or.inr rfl
  | some l =>
    left
    have := List.find?_some hf
    simpa using this

theorem componentTarPath_not_always (x : String) :
    componentTarPath x ∉ packageAlwaysPull := by
  intro h
  have hlen : (componentTarPath x).length = 15 + x.length := by
    show (("components/" ++ x) ++ ".tar").length = 15 + x.length
    rw [String.length_append, String.length_append]
    show 11 + x.length + 4 = 15 + x.length
    omega
  simp only [packageAlwaysPull, List.mem_cons, List.not_mem_nil, or_false] at h
  have h1 : ("zarf.yaml").length = 9 := rfl
  have h2 : ("checksums.txt").length = 13 := rfl
  have h3 : ("zarf.yaml.sig").length = 13 := rfl
  rcases h with h | h | h <;>
    · rw [h] at hlen
      omega

theorem blobPath_not_always (x : String) : blobPath x ∉ packageAlwaysPull := by
  intro h
  have hlen : (blobPath x).length = 20 + x.length := by
    show ("images/blobs/sha256/" ++ x).length = 20 + x.length
    rw [String.length_append]
    show 20 + x.length = 20 + x.length
    rfl
  simp only [packageAlwaysPull, List.mem_cons, List.not_mem_nil, or_false] at h
  have h1 : ("zarf.yaml").length = 9 := rfl
  have h2 : ("checksums.txt").length = 13 := rfl
  have h3 : ("zarf.yaml.sig").length = 13 := rfl
  rcases h with h | h | h <;>
    · rw [h] at hlen
      omega

theorem locate_not_always (m : ZarfOCIManifest) (path : String)
    (hp : path ∉ packageAlwaysPull) :
    (locate m path).title ∉ packageAlwaysPull := by
  rcases locate_title m path with h | h <;> rw [h]
  · exact hp
  · decide

theorem imageBlobDescs_shape (r : OCIRemote) (img : String)
    (ds : List Descriptor) (h : imageBlobDescs r img = .ok ds) :
    ∀ d ∈ ds, ∃ x, d = locate r.root (blobPath x) := by
  unfold imageBlobDescs at h
  cases hf : fetchManifest r (imageManifestDesc r img) with
  | error e =>
    rw [hf] at h
    simp at h
  | ok man =>
    rw [hf] at h
    have hds : ds = locate r.root (blobPath (imageManifestDesc r img).digest)
        :: locate r.root (blobPath man.config.digest)
        :: man.layers.map (fun l => locate r.root (blobPath l.digest)) := by
      simpa using h.symm
    intro d hd
    rw [hds] at hd
    rcases List.mem_cons.mp hd with rfl | hd
    · exact ⟨_, rfl⟩
    rcases List.mem_cons.mp hd with rfl | hd
    · exact ⟨_, rfl⟩
    obtain ⟨l, -, rfl⟩ := List.mem_map.mp hd
    exact ⟨_, rfl⟩

theorem addAlwaysPull_eq (r : OCIRemote) (L : List Descriptor)
    (hT : ∀ d ∈ L, d.title ∉ packageAlwaysPull) :
    addAlwaysPull r L = L ++ packageAlwaysPull.map (locate r.root) := by
  have hLany : ∀ p ∈ packageAlwaysPull,
      L.any (fun layer => layer.title == p) = false := by
    intro p hp
    rw [List.any_eq_false]
    intro d hd
    simp only [beq_iff_eq]
    intro he
    exact hT d hd (he ▸ hp)
  have ha1 : L.any (fun layer => layer.title == "zarf.yaml") = false :=
    hLany _ (by simp [packageAlwaysPull])
  have ha2 : L.any (fun layer => layer.title == "checksums.txt") = false :=
    hLany _ (by simp [packageAlwaysPull])
  have ha3 : L.any (fun layer => layer.title == "zarf.yaml.sig") = false :=
    hLany _ (by simp [packageAlwaysPull])
  have hz1 : ((locate r.root "zarf.yaml").title == "checksums.txt") = false := by
    rcases locate_title r.root "zarf.yaml" with h | h <;> rw [h] <;> decide
  have hz2 : ((locate r.root "zarf.yaml").title == "zarf.yaml.sig") = false := by
    rcases locate_title r.root "zarf.yaml" with h | h <;> rw [h] <;> decide
  have hc2 : ((locate r.root "checksums.txt").title == "zarf.yaml.sig")
      = false := by
    rcases locate_title r.root "checksums.txt" with h | h <;> rw [h] <;> decide
  unfold addAlwaysPull packageAlwaysPull
  simp only [List.foldl_cons, List.foldl_nil, List.any_append, List.any_cons,
    List.any_nil, ha1, ha2, ha3, hz1, hz2, hc2, Bool.or_false, Bool.false_or,
    Bool.false_eq_true, if_false, List.map_cons, List.map_nil]
  simp [List.append_assoc]

theorem mem_filterMap_digest (x : String) (full : List Descriptor) :
    (x ∈ full.filterMap (fun l =>
      if l.digest == "" then none else some l.digest))
      ↔ x ≠ "" ∧ ∃ dsc ∈ full, dsc.digest = x := by
  rw [List.mem_filterMap]
  constructor
  · rintro ⟨a, ha, hax⟩
    by_cases hd : a.digest == ""
    · rw [if_pos hd] at hax
      simp at hax
    · rw [if_neg hd] at hax
      have : a.digest = x := by simpa using hax
      subst this
      exact ⟨by simpa using hd, a, ha, rfl⟩
  · rintro ⟨hx, a, ha, hax⟩
    refine ⟨a, ha, ?_⟩
    rw [if_neg (by simp [hax, hx]), hax]

theorem pullPackage_partial_spec (r : OCIRemote) (L : List Descriptor)
    (hne : L ≠ []) (hT : ∀ d ∈ L, d.title ∉ packageAlwaysPull)
    (b : Descriptor) :
    b ∈ (pullPackage r L).downloaded ↔
      b ∈ r.root.config :: r.root.layers ∧ b.digest ≠ ""
        ∧ ∃ dsc, (dsc ∈ L ∨ dsc ∈ packageAlwaysPull.map (locate r.root))
            ∧ dsc.digest = b.digest := by
  have hdl : (pullPackage r L).downloaded
      = (r.root.config :: r.root.layers).filter (fun b =>
          ((L ++ packageAlwaysPull.map (locate r.root)).filterMap (fun l =>
            if l.digest == "" then none else some l.digest)).contains
            b.digest) := by
    unfold pullPackage
    rw [if_neg (by simp [List.isEmpty_iff, hne]), addAlwaysPull_eq r L hT]
  rw [hdl, List.mem_filter]
  constructor
  · rintro ⟨hb, hc⟩
    obtain ⟨hxne, dsc, hdsc, hdig⟩ :=
      (mem_filterMap_digest b.digest _).mp (List.elem_iff.mp hc)
    exact ⟨hb, hxne, dsc, List.mem_append.mp hdsc, hdig⟩
  · rintro ⟨hb, hxne, dsc, hdsc, hdig⟩
    refine ⟨hb, List.elem_iff.mpr ?_⟩
    exact (mem_filterMap_digest b.digest _).mpr
      ⟨hxne, dsc, List.mem_append.mpr hdsc, hdig⟩

theorem selected_ne_nil (r : OCIRemote) (requested : List String)
    (h1 : requested ≠ [])
    (h2 : requested.find? (fun name =>
      ((r.components.find? (fun c => c.name == name)).getD
        ⟨"", false, []⟩).name == "") = none) :
    selectedComponents r requested ≠ [] := by
  obtain ⟨n, ns, rfl⟩ : ∃ n ns, requested = n :: ns := by
    cases requested with
    | nil => exact absurd rfl h1
    | cons n ns => exact ⟨n, ns, rfl⟩
  have hpred := List.find?_eq_none.mp h2 n (List.mem_cons_self n ns)
  cases hf : r.components.find? (fun c => c.name == n) with
  | none =>
    rw [hf] at hpred
    simp at hpred
  | some c =>
    have hcname : c.name = n := by simpa using List.find?_some hf
    have hcm : c ∈ r.components := List.mem_of_find?_eq_some hf
    intro hnil
    have hmem : c ∈ selectedComponents r (n :: ns) := by
      rw [selectedComponents, List.mem_filter]
      refine ⟨hcm, ?_⟩
      have hcont : (n :: ns).contains c.name = true := by
        rw [hcname]
        exact List.elem_iff.mpr (List.mem_cons_self n ns)
      simp [hcont, hcname]
    rw [hnil] at hmem
    exact absurd hmem (List.not_mem_nil c)

theorem mem_tarLayers (r : OCIRemote) (requested : List String)
    (d : Descriptor) :
    (d ∈ (selectedComponents r requested).map
        (fun c => locate r.root (componentTarPath c.name)))
      ↔ ((selectedComponents r requested).any
          (fun c => d == locate r.root (componentTarPath c.name)) = true) := by
  rw [List.mem_map, List.any_eq_true]
  constructor
  · rintro ⟨c, hc, rfl⟩
    exact ⟨c, hc, by simp⟩
  · rintro ⟨c, hc, he⟩
    have hde : d = locate r.root (componentTarPath c.name) := by simpa using he
    exact ⟨c, hc, hde.symm⟩

theorem mem_sbomsOpt (r : OCIRemote) (d : Descriptor) :
    (d ∈ (if (locate r.root "sboms.tar").isEmpty then ([] : List Descriptor)
        else [locate r.root "sboms.tar"]))
      ↔ ((!(locate r.root "sboms.tar").isEmpty
          && (d == locate r.root "sboms.tar")) = true) := by
  by_cases hs : (locate r.root "sboms.tar").isEmpty = true
  · simp [hs]
  · have hs' : (locate r.root "sboms.tar").isEmpty = false :=
      Bool.not_eq_true _ ▸ hs
    simp [hs']

theorem imageMatch_iff (r : OCIRemote) (img : String) (d : Descriptor) :
    ((match imageBlobDescs r img with
      | .ok descs => descs.contains d
      | .error _ => false) = true)
    ↔ ∃ ds, imageBlobDescs r img = .ok ds ∧ d ∈ ds := by
  cases h : imageBlobDescs r img with
  | ok descs =>
    simp only [h]
    constructor
    · intro hc
      exact ⟨descs, rfl, List.elem_iff.mp hc⟩
    · rintro ⟨ds, hds, hd⟩
      obtain rfl : descs = ds := by simpa using hds
      exact List.elem_iff.mpr hd
  | error e => simp [h]

set_option maxHeartbeats 1000000 in
/-- C1 amended: for every OCI remote and requested component set whose
names all exist in the package (and whose image manifests resolve), the
partial pull downloads exactly the computed layer set — the per-component
tarball of each requested or required component, `sboms.tar` when present,
and, when those components reference at least one image, the `index.json`
and `oci-layout` entries together with each image's manifest, config and
layer blobs — plus the mandatory always-pull set
`{zarf.yaml, checksums.txt, zarf.yaml.sig}`; no other blob is
downloaded. -/
theorem partial_pull_downloads_exactly (r : OCIRemote)
    (requested : List String) (h1 : requested ≠ [])
    (h2 : requested.find? (fun name =>
      ((r.components.find? (fun c => c.name == name)).getD
        ⟨"", false, []⟩).name == "") = none)
    (h3 : ∀ img ∈ selectedImages r requested,
      isOkB (imageBlobDescs r img) = true) :
    ∃ L, layersFromRequestedComponents r requested = .ok L
      ∧ (∀ d, d ∈ L ↔ amendedLayerSet r requested d = true)
      ∧ (∀ b, b ∈ (pullPackage r L).downloaded ↔
          b ∈ r.root.config :: r.root.layers ∧ b.digest ≠ ""
            ∧ ∃ dsc, (dsc ∈ L ∨ dsc ∈ packageAlwaysPull.map (locate r.root))
                ∧ dsc.digest = b.digest) := by
  by_cases himg : (selectedImages r requested).isEmpty = true
  · -- no images among the selected components
    refine ⟨(selectedComponents r requested).map
        (fun c => locate r.root (componentTarPath c.name))
      ++ (if (locate r.root "sboms.tar").isEmpty then []
          else [locate r.root "sboms.tar"]), ?_, ?_, ?_⟩
    · unfold layersFromRequestedComponents
      rw [h2]
      simp [himg]
    · intro d
      have hAI := (selectedImages_isEmpty_iff r requested).mp himg
      have hImgAny : ((selectedComponents r requested).any
          (fun c => c.images.any (fun img =>
            match imageBlobDescs r img with
            | .ok descs => descs.contains d
            | .error _ => false))) = false := by
        rw [List.any_eq_false]
        intro c hc
        have hcnil : c.images = [] := by
          have := List.any_eq_false.mp hAI c hc
          simpa using this
        simp [hcnil]
      unfold amendedLayerSet
      rw [hAI, hImgAny]
      simp only [Bool.false_and, Bool.or_false]
      rw [List.mem_append, mem_tarLayers r requested d, mem_sbomsOpt r d,
        ← Bool.or_eq_true]
    · have hT : ∀ d ∈ (selectedComponents r requested).map
          (fun c => locate r.root (componentTarPath c.name))
          ++ (if (locate r.root "sboms.tar").isEmpty then []
              else [locate r.root "sboms.tar"]),
          d.title ∉ packageAlwaysPull := by
        intro d hd
        rcases List.mem_append.mp hd with hd | hd
        · obtain ⟨c, -, rfl⟩ := List.mem_map.mp hd
          exact locate_not_always _ _ (componentTarPath_not_always c.name)
        · by_cases hs : (locate r.root "sboms.tar").isEmpty = true
          · rw [if_pos hs] at hd
            exact absurd hd (List.not_mem_nil d)
          · rw [if_neg hs] at hd
            obtain rfl := List.mem_singleton.mp hd
            exact locate_not_always _ _ (by decide)
      have hne : (selectedComponents r requested).map
          (fun c => locate r.root (componentTarPath c.name))
          ++ (if (locate r.root "sboms.tar").isEmpty then []
              else [locate r.root "sboms.tar"]) ≠ [] := by
        intro h
        obtain ⟨hmap, -⟩ := List.append_eq_nil.mp h
        rw [List.map_eq_nil] at hmap
        exact selected_ne_nil r requested h1 h2 hmap
      exact pullPackage_partial_spec r _ hne hT
  · -- at least one image among the selected components
    obtain ⟨ls, hls, hmem⟩ := foldlM_imageBlobs r (selectedImages r requested)
      [] h3
    have himg' : (selectedImages r requested).isEmpty = false :=
      Bool.not_eq_true _ ▸ himg
    have hAI : ((selectedComponents r requested).any
        (fun c => !c.images.isEmpty)) = true := by
      cases hval : (selectedComponents r requested).any
          (fun c => !c.images.isEmpty) with
      | true => rfl
      | false =>
        exact absurd ((selectedImages_isEmpty_iff r requested).mpr hval) himg
    refine ⟨(((selectedComponents r requested).map
          (fun c => locate r.root (componentTarPath c.name))
        ++ (if (locate r.root "sboms.tar").isEmpty then []
            else [locate r.root "sboms.tar"]))
        ++ [locate r.root indexJsonPath, locate r.root ociLayoutPathStr])
        ++ ls, ?_, ?_, ?_⟩
    · unfold layersFromRequestedComponents
      rw [h2]
      simp only [himg', Bool.false_eq_true, if_false]
      rw [hls]
      rfl
    · intro d
      have himgiff : (d ∈ ls) ↔ ((selectedComponents r requested).any
          (fun c => c.images.any (fun img =>
            match imageBlobDescs r img with
            | .ok descs => descs.contains d
            | .error _ => false))) = true := by
        rw [hmem d]
        simp only [List.not_mem_nil, false_or]
        rw [List.any_eq_true]
        constructor
        · rintro ⟨img, himgm, ds, hds, hd⟩
          obtain ⟨c, hc, hic⟩ := (mem_selectedImages r requested img).mp himgm
          exact ⟨c, hc, List.any_eq_true.mpr
            ⟨img, hic, (imageMatch_iff r img d).mpr ⟨ds, hds, hd⟩⟩⟩
        · rintro ⟨c, hc, hcany⟩
          obtain ⟨img, hic, hm⟩ := List.any_eq_true.mp hcany
          obtain ⟨ds, hds, hd⟩ := (imageMatch_iff r img d).mp hm
          exact ⟨img, (mem_selectedImages r requested img).mpr ⟨c, hc, hic⟩,
            ds, hds, hd⟩
      have hpair : (d ∈ [locate r.root indexJsonPath,
          locate r.root ociLayoutPathStr])
          ↔ ((d == locate r.root indexJsonPath
              || d == locate r.root ociLayoutPathStr) = true) := by
        simp
      unfold amendedLayerSet
      rw [hAI, Bool.true_and]
      rw [List.mem_append, List.mem_append, List.mem_append,
        mem_tarLayers r requested d, mem_sbomsOpt r d, himgiff, hpair]
      simp only [Bool.or_eq_true]
    · have hT : ∀ d ∈ (((selectedComponents r requested).map
          (fun c => locate r.root (componentTarPath c.name))
          ++ (if (locate r.root "sboms.tar").isEmpty then []
              else [locate r.root "sboms.tar"]))
          ++ [locate r.root indexJsonPath, locate r.root ociLayoutPathStr])
          ++ ls,
          d.title ∉ packageAlwaysPull := by
        intro d hd
        rcases List.mem_append.mp hd with hd | hd
        · rcases List.mem_append.mp hd with hd | hd
          · rcases List.mem_append.mp hd with hd | hd
            · obtain ⟨c, -, rfl⟩ := List.mem_map.mp hd
              exact locate_not_always _ _ (componentTarPath_not_always c.name)
            · by_cases hs : (locate r.root "sboms.tar").isEmpty = true
              · rw [if_pos hs] at hd
                exact absurd hd (List.not_mem_nil d)
              · rw [if_neg hs] at hd
                obtain rfl := List.mem_singleton.mp hd
                exact locate_not_always _ _ (by decide)
          · rcases List.mem_cons.mp hd with rfl | hd
            · exact locate_not_always _ _ (by decide)
            · obtain rfl := List.mem_singleton.mp hd
              exact locate_not_always _ _ (by decide)
        · obtain ⟨img, -, ds, hds, hdm⟩ := ((hmem d).mp hd).resolve_left
            (List.not_mem_nil d)
          obtain ⟨x, rfl⟩ := imageBlobDescs_shape r img ds hds d hdm
          exact locate_not_always _ _ (blobPath_not_always x)
      have hne : (((selectedComponents r requested).map
          (fun c => locate r.root (componentTarPath c.name))
          ++ (if (locate r.root "sboms.tar").isEmpty then []
              else [locate r.root "sboms.tar"]))
          ++ [locate r.root indexJsonPath, locate r.root ociLayoutPathStr])
          ++ ls ≠ [] := by
        intro h
        obtain ⟨h', -⟩ := List.append_eq_nil.mp h
        obtain ⟨-, hpair⟩ := List.append_eq_nil.mp h'
        exact absurd hpair (by simp)
      exact pullPackage_partial_spec r _ hne hT

/-- The remote of the C1 counterexample: one required component `a` with no
images, and a root whose layers do include `index.json` and `oci-layout`
entries. -/
def c1Remote : OCIRemote :=
  { root :=
      { layers :=
          [⟨"d1", 10, "zarf.yaml", ""⟩,
           ⟨"d2", 10, "checksums.txt", ""⟩,
           ⟨"d3", 10, "zarf.yaml.sig", ""⟩,
           ⟨"d4", 100, "components/a.tar", ""⟩,
           ⟨"d5", 5, "images/index.json", ""⟩,
           ⟨"d6", 5, "images/oci-layout", ""⟩],
        config := ⟨"dc", 3, "", ""⟩ },
    components := [⟨"a", true, []⟩],
    indexManifests := [],
    manifests := [] }

/-- C1 counterexample: for a package whose only (required) component has no
images, the claim's layer set contains the `index.json` entry, but the code
neither computes nor downloads it — `index.json` and `oci-layout` are
pulled only when the selected components reference at least one image. -/
theorem partial_pull_ne_claim :
    layersFromRequestedComponents c1Remote ["a"]
      = .ok [⟨"d4", 100, "components/a.tar", ""⟩]
    ∧ claimLayerSet c1Remote ["a"] ⟨"d5", 5, "images/index.json", ""⟩ = true
    ∧ amendedLayerSet c1Remote ["a"] ⟨"d5", 5, "images/index.json", ""⟩ = false
    ∧ ⟨"d5", 5, "images/index.json", ""⟩
        ∉ (pullPackage c1Remote
            [⟨"d4", 100, "components/a.tar", ""⟩]).downloaded := by
  refine ⟨by decide, by decide, by decide, by decide⟩

/-- Witness for C1: the amended pull-exactness, instantiated at the
single-component remote. -/
theorem partial_pull_downloads_exactly_witness :
    ∃ L, layersFromRequestedComponents c1Remote ["a"] = .ok L
      ∧ (∀ d, d ∈ L ↔ amendedLayerSet c1Remote ["a"] d = true)
      ∧ (∀ b, b ∈ (pullPackage c1Remote L).downloaded ↔
          b ∈ c1Remote.root.config :: c1Remote.root.layers ∧ b.digest ≠ ""
            ∧ ∃ dsc, (dsc ∈ L
                ∨ dsc ∈ packageAlwaysPull.map (locate c1Remote.root))
                ∧ dsc.digest = b.digest) :=
  partial_pull_downloads_exactly c1Remote ["a"] (by decide) (by decide)
    (by decide)

/-! ### C2 and C3 -/

theorem join_splitChunksGo (n : Nat) (hn : 0 < n) :
    ∀ (fuel : Nat) (data : List Nat), data.length ≤ fuel →
      (splitChunksGo n fuel data).flatten = data := by
  intro fuel
  induction fuel with
  | zero =>
    intro data hd
    cases data with
    | nil => rfl
    | cons x xs => simp at hd
  | succ k ih =>
    intro data hd
    cases data with
    | nil => rfl
    | cons x xs =>
      have hne : ¬n = 0 := Nat.pos_iff_ne_zero.mp hn
      have hdrop : ((x :: xs).drop n).length ≤ k := by
        simp only [List.length_drop, List.length_cons]
        simp only [List.length_cons] at hd
        omega
      simp only [splitChunksGo, if_neg hne, List.flatten_cons]
      rw [ih ((x :: xs).drop n) hdrop]
      exact List.take_append_drop n (x :: xs)

theorem join_splitChunks (data : List Nat) (n : Nat) (hn : 0 < n) :
    (splitChunks data n).flatten = data :=
  join_splitChunksGo n hn data.length data le_rfl

theorem charListLt_asymm :
    ∀ a b : List Char, charListLt a b = true → charListLt b a = false := by
  intro a
  induction a with
  | nil =>
    intro b _
    cases b with
    | nil => rfl
    | cons c cs => rfl
  | cons c cs ih =>
    intro b hab
    cases b with
    | nil => simp [charListLt] at hab
    | cons d ds =>
      by_cases h1 : c.toNat < d.toNat
      · have h2 : ¬d.toNat < c.toNat := by omega
        simp [charListLt, h1, h2]
      · by_cases h2 : d.toNat < c.toNat
        · simp [charListLt, h1, h2] at hab
        · have := ih ds (by simpa [charListLt, h1, h2] using hab)
          simp [charListLt, h1, h2, this]

theorem strLtB_asymm (a b : String) (h : strLtB a b = true) :
    strLtB b a = false :=
  charListLt_asymm a.data b.data h

theorem insertPart_of_head_gt (x y : String × List Nat)
    (ys : List (String × List Nat)) (h : strLtB x.1 y.1 = true) :
    insertPart x (y :: ys) = x :: y :: ys := by
  simp [insertPart, strLtB_asymm _ _ h]

theorem sortParts_of_sorted :
    ∀ l : List (String × List Nat),
      namesAscB (l.map Prod.fst) = true → sortParts l = l := by
  intro l
  induction l with
  | nil => intro; rfl
  | cons x xs ih =>
    intro hc
    cases xs with
    | nil => rfl
    | cons y ys =>
      simp only [List.map_cons, namesAscB, Bool.and_eq_true] at hc
      have hstep : sortParts (x :: y :: ys) = insertPart x (sortParts (y :: ys)) := rfl
      have htail : namesAscB ((y :: ys).map Prod.fst) = true := by
        simpa using hc.2
      rw [hstep, ih htail, insertPart_of_head_gt x y ys hc.1]

/-- C2: `SplitTarballSource.Collect` reads the JSON header from the
lexically first part, appends the remaining parts in lexical filename
order, errors when the number of subsequent parts differs from the
header's count, when the header hash disagrees with a caller-supplied
shasum, or when the SHA-256 of the reassembly differs from the header's
hash — and removes the part files only when the hash verifies. -/
theorem collect_checks (decode : List Nat → Option ZarfSplitPackageData)
    (files : List (String × List Nat)) (shasum : String)
    (first : String × List Nat) (rest : List (String × List Nat))
    (hdr : ZarfSplitPackageData)
    (hsort : sortParts files = first :: rest)
    (hdec : decode first.2 = some hdr) :
    (rest.length ≠ hdr.count →
      collect decode files shasum
        = ⟨.error "package is missing parts", false⟩)
    ∧ (rest.length = hdr.count → shasum ≠ "" → hdr.sha256Sum ≠ shasum →
      collect decode files shasum
        = ⟨.error "mismatch in CLI options and package metadata", false⟩)
    ∧ (rest.length = hdr.count → (shasum = "" ∨ hdr.sha256Sum = shasum) →
      sha256Hex ((rest.map (fun p => p.2)).flatten) ≠ hdr.sha256Sum →
      collect decode files shasum
        = ⟨.error "package integrity check failed", false⟩)
    ∧ (rest.length = hdr.count → (shasum = "" ∨ hdr.sha256Sum = shasum) →
      sha256Hex ((rest.map (fun p => p.2)).flatten) = hdr.sha256Sum →
      collect decode files shasum
        = ⟨.ok ((rest.map (fun p => p.2)).flatten), true⟩)
    ∧ ((collect decode files shasum).partsRemoved = true →
      sha256Hex ((rest.map (fun p => p.2)).flatten) = hdr.sha256Sum) := by
  unfold collect
  rw [hsort]
  simp only [hdec]
  refine ⟨?_, ?_, ?_, ?_, ?_⟩
  · intro h
    rw [if_pos h]
  · intro h1 h2 h3
    rw [if_neg (by simp [h1]), if_pos ⟨h2, h3⟩]
  · intro h1 h2 h3
    rw [if_neg (by simp [h1]), if_neg (by tauto), if_pos h3]
  · intro h1 h2 h3
    rw [if_neg (by simp [h1]), if_neg (by tauto), if_neg (by simp [h3])]
  · intro h
    by_cases h1 : rest.length = hdr.count
    · by_cases h2 : shasum ≠ "" ∧ hdr.sha256Sum ≠ shasum
      · rw [if_neg (by simp [h1]), if_pos h2] at h
        simp at h
      · by_cases h3 : sha256Hex ((rest.map (fun p => p.2)).flatten) = hdr.sha256Sum
        · exact h3
        · rw [if_neg (by simp [h1]), if_neg h2, if_pos h3] at h
          simp at h
    · rw [if_pos h1] at h
      simp at h

/-- Witness for C2: a two-part split with a bad header count is rejected
without removing the parts. -/
theorem collect_checks_witness :
    collect (fun _ => some ⟨5, "", 1⟩)
        [("a.part001", [7]), ("a.part000", [0])] ""
      = ⟨.error "package is missing parts", false⟩ :=
  (collect_checks (fun _ => some ⟨5, "", 1⟩)
      [("a.part001", [7]), ("a.part000", [0])] ""
      ("a.part000", [0]) [("a.part001", [7])] ⟨5, "", 1⟩
      (by decide) rfl).1 (by decide)

/-- C3: for every byte list and positive chunk size, the chunks of
`SplitFile` concatenate back to the original bytes and come with its hex
SHA-256; reassembling them with `Collect` behind a header part that
records their count and that hash (under lexically increasing part names,
the header name first) reproduces the original bytes and removes the
parts. -/
theorem split_join_roundtrip (data : List Nat) (n : Nat) (hn : 0 < n)
    (headerName : String) (headerBytes : List Nat) (partNames : List String)
    (decode : List Nat → Option ZarfSplitPackageData)
    (hlen : partNames.length = (splitFile data n).1.length)
    (hsorted : namesAscB (headerName :: partNames) = true)
    (hdec : decode headerBytes
      = some ⟨(splitFile data n).1.length, (splitFile data n).2, data.length⟩) :
    (splitFile data n).1.flatten = data
    ∧ (splitFile data n).2 = sha256Hex data
    ∧ collect decode
        ((headerName, headerBytes) :: partNames.zip (splitFile data n).1) ""
      = ⟨.ok data, true⟩ := by
  have hjoin : (splitFile data n).1.flatten = data := join_splitChunks data n hn
  refine ⟨hjoin, rfl, ?_⟩
  set parts := partNames.zip (splitFile data n).1 with hparts
  have hfst : parts.map Prod.fst = partNames :=
    List.map_fst_zip partNames (splitFile data n).1 hlen.le
  have hsort : sortParts ((headerName, headerBytes) :: parts)
      = (headerName, headerBytes) :: parts := by
    refine sortParts_of_sorted _ ?_
    simpa [hfst] using hsorted
  have hsnd : parts.map (fun p => p.2) = (splitFile data n).1 := by
    have := List.map_snd_zip partNames (splitFile data n).1 hlen.ge
    simpa using this
  have hcount : parts.length = (splitFile data n).1.length := by
    rw [hparts, List.length_zip, hlen, Nat.min_self]
  have := (collect_checks decode ((headerName, headerBytes) :: parts) ""
      (headerName, headerBytes) parts
      ⟨(splitFile data n).1.length, (splitFile data n).2, data.length⟩
      hsort hdec).2.2.2.1
  rw [hsnd, hjoin] at this
  exact this hcount (Or.inl rfl) rfl

/-- Witness for C3: splitting three bytes at chunk size two and rejoining
the parts reproduces them. -/
theorem split_join_roundtrip_witness :
    collect (fun _ => some ⟨2, sha256Hex [1, 2, 3], 3⟩)
        [("a.part000", [9]), ("a.part001", [1, 2]), ("a.part002", [3])] ""
      = ⟨.ok [1, 2, 3], true⟩ :=
  (split_join_roundtrip [1, 2, 3] 2 (by decide) "a.part000" [9]
      ["a.part001", "a.part002"] (fun _ => some ⟨2, sha256Hex [1, 2, 3], 3⟩)
      (by decide) (by decide) rfl).2.2

/-! ### C4 and C5 -/

theorem matchTokenAt_decomp (cs t r : List Char)
    (h : matchTokenAt cs = some (t, r)) : cs = t ++ r ∧ 7 ≤ t.length := by
  unfold matchTokenAt at h
  split at h
  case _ rest =>
    split at h
    · simp at h
    case _ key k ks hkey hdrop =>
      rw [Option.some_inj] at h
      simp only [Prod.mk.injEq] at h
      obtain ⟨ht, hr⟩ := h
      have hsplit : rest.takeWhile isTplChar ++ rest.dropWhile isTplChar
          = rest := List.takeWhile_append_dropWhile (p := isTplChar) (l := rest)
      constructor
      · rw [← ht, ← hr]
        conv_lhs => rw [← hsplit]
        rw [hkey]
        simp
      · rw [← ht]
        cases htw : rest.takeWhile isTplChar with
        | nil => exact absurd htw (fun hh => hdrop hh)
        | cons a as => simp [htw]
    · simp at h
  · simp at h

theorem findToken_decomp :
    ∀ (cs p t r : List Char), findToken cs = some (p, t, r) →
      cs = p ++ t ++ r ∧ 7 ≤ t.length := by
  intro cs
  induction cs with
  | nil => intro p t r h; simp [findToken] at h
  | cons c cs ih =>
    intro p t r h
    unfold findToken at h
    cases hm : matchTokenAt (c :: cs) with
    | some pr =>
      rw [hm] at h
      rw [Option.some_inj] at h
      simp only [Prod.mk.injEq] at h
      obtain ⟨hp, ht, hr⟩ := h
      obtain ⟨hcs, hlen⟩ := matchTokenAt_decomp (c :: cs) pr.1 pr.2 (by simp [hm])
      rw [← hp, ← ht, ← hr]
      simpa using ⟨hcs, hlen⟩
    | none =>
      rw [hm] at h
      cases hf : findToken cs with
      | none => rw [hf] at h; simp at h
      | some q =>
        rw [hf] at h
        rw [Option.some_inj] at h
        simp only [Prod.mk.injEq] at h
        obtain ⟨hp, ht, hr⟩ := h
        obtain ⟨hcs, hlen⟩ := ih q.1 q.2.1 q.2.2 (by simp [hf])
        rw [← hp, ← ht, ← hr]
        constructor
        · simp [hcs]
        · exact hlen

theorem findToken_post_lt (cs p t r : List Char)
    (h : findToken cs = some (p, t, r)) : r.length + 7 ≤ cs.length := by
  obtain ⟨hcs, hlen⟩ := findToken_decomp cs p t r h
  rw [hcs]
  simp only [List.length_append]
  omega

/-- One-step unfolding of `processLineGo` at successor fuel. -/
theorem processLineGo_step (fs : FileSys)
    (m : List (List Char × TextTemplate)) (n : Nat) (line : List Char) :
    processLineGo fs m (n + 1) line =
      match findToken line with
      | none => line ++ ['\n']
      | some (pre, tok, post) =>
        match lookupTpl m tok with
        | none => pre ++ tok ++ processLineGo fs m n post
        | some tpl =>
          match resolveValue fs tpl with
          | none => processLineGo fs m n post
          | some v =>
            pre ++ (if tpl.autoIndent then autoIndentValue pre.length v else v)
              ++ processLineGo fs m n post := rfl

theorem processLineGo_succ (fs : FileSys)
    (m : List (List Char × TextTemplate)) :
    ∀ (fuel : Nat) (line : List Char), line.length ≤ fuel →
      processLineGo fs m (fuel + 1) line = processLineGo fs m fuel line := by
  intro fuel
  induction fuel with
  | zero =>
    intro line h
    have : line = [] := List.length_eq_zero.mp (Nat.le_zero.mp h)
    subst this
    rfl
  | succ k ih =>
    intro line h
    rw [processLineGo_step fs m (k + 1) line, processLineGo_step fs m k line]
    cases hft : findToken line with
    | none => simp only [hft]
    | some ptr =>
      obtain ⟨p, t, r⟩ := ptr
      have hr : r.length ≤ k := by
        have := findToken_post_lt line p t r hft
        omega
      simp only [hft]
      cases hl : lookupTpl m t with
      | none => simp only [hl]; rw [ih r hr]
      | some tpl =>
        simp only [hl]
        cases hv : resolveValue fs tpl with
        | none => simp only [hv]; exact ih r hr
        | some v => simp only [hv]; rw [ih r hr]

theorem processLineGo_fuel (fs : FileSys)
    (m : List (List Char × TextTemplate)) (fuel : Nat) (line : List Char)
    (h : line.length ≤ fuel) :
    processLineGo fs m fuel line = processLine fs m line := by
  obtain ⟨k, rfl⟩ : ∃ k, fuel = line.length + k := ⟨fuel - line.length, by omega⟩
  clear h
  induction k with
  | zero => rfl
  | succ j ih =>
    have hstep : line.length + (j + 1) = line.length + j + 1 := rfl
    rw [hstep, processLineGo_succ fs m (line.length + j) line (by omega)]
    exact ih

theorem processLine_eq (fs : FileSys) (m : List (List Char × TextTemplate))
    (line : List Char) :
    processLine fs m line =
      match findToken line with
      | none => line ++ ['\n']
      | some (pre, tok, post) =>
        match lookupTpl m tok with
        | none => pre ++ tok ++ processLine fs m post
        | some tpl =>
          match resolveValue fs tpl with
          | none => processLine fs m post
          | some v =>
            pre ++ (if tpl.autoIndent then autoIndentValue pre.length v else v)
              ++ processLine fs m post := by
  cases line with
  | nil => rfl
  | cons c cs =>
    show processLineGo fs m (cs.length + 1) (c :: cs) = _
    rw [processLineGo_step]
    cases hft : findToken (c :: cs) with
    | none => simp only [hft]
    | some ptr =>
      obtain ⟨p, t, r⟩ := ptr
      have hr : r.length ≤ cs.length := by
        have := findToken_post_lt (c :: cs) p t r hft
        simp only [List.length_cons] at this
        omega
      simp only [hft, processLineGo_fuel fs m cs.length r hr]

/-- One-step unfolding of `allTokensUnmappedGo` at successor fuel. -/
theorem allTokensUnmappedGo_step (m : List (List Char × TextTemplate))
    (n : Nat) (line : List Char) :
    allTokensUnmappedGo m (n + 1) line =
      match findToken line with
      | none => true
      | some (_, tok, post) =>
        (lookupTpl m tok).isNone && allTokensUnmappedGo m n post := rfl

theorem allTokensUnmappedGo_succ (m : List (List Char × TextTemplate)) :
    ∀ (fuel : Nat) (line : List Char), line.length ≤ fuel →
      allTokensUnmappedGo m (fuel + 1) line = allTokensUnmappedGo m fuel line := by
  intro fuel
  induction fuel with
  | zero =>
    intro line h
    have : line = [] := List.length_eq_zero.mp (Nat.le_zero.mp h)
    subst this
    rfl
  | succ k ih =>
    intro line h
    rw [allTokensUnmappedGo_step m (k + 1) line, allTokensUnmappedGo_step m k line]
    cases hft : findToken line with
    | none => simp only [hft]
    | some ptr =>
      obtain ⟨p, t, r⟩ := ptr
      have hr : r.length ≤ k := by
        have := findToken_post_lt line p t r hft
        omega
      simp only [hft, ih r hr]

theorem allTokensUnmappedGo_fuel (m : List (List Char × TextTemplate))
    (fuel : Nat) (line : List Char) (h : line.length ≤ fuel) :
    allTokensUnmappedGo m fuel line = allTokensUnmappedB m line := by
  obtain ⟨k, rfl⟩ : ∃ k, fuel = line.length + k := ⟨fuel - line.length, by omega⟩
  clear h
  induction k with
  | zero => rfl
  | succ j ih =>
    have hstep : line.length + (j + 1) = line.length + j + 1 := rfl
    rw [hstep, allTokensUnmappedGo_succ m (line.length + j) line (by omega)]
    exact ih

theorem allTokensUnmappedB_eq (m : List (List Char × TextTemplate))
    (line : List Char) :
    allTokensUnmappedB m line =
      match findToken line with
      | none => true
      | some (_, tok, post) =>
        (lookupTpl m tok).isNone && allTokensUnmappedB m post := by
  cases line with
  | nil => rfl
  | cons c cs =>
    show allTokensUnmappedGo m (cs.length + 1) (c :: cs) = _
    rw [allTokensUnmappedGo_step]
    cases hft : findToken (c :: cs) with
    | none => simp only [hft]
    | some ptr =>
      obtain ⟨p, t, r⟩ := ptr
      have hr : r.length ≤ cs.length := by
        have := findToken_post_lt (c :: cs) p t r hft
        simp only [List.length_cons] at this
        omega
      simp only [hft, allTokensUnmappedGo_fuel m cs.length r hr]

theorem processLine_of_unmapped (fs : FileSys)
    (m : List (List Char × TextTemplate)) :
    ∀ (n : Nat) (line : List Char), line.length ≤ n →
      allTokensUnmappedB m line = true →
      processLine fs m line = line ++ ['\n'] := by
  intro n
  induction n with
  | zero =>
    intro line hl _
    have : line = [] := List.length_eq_zero.mp (Nat.le_zero.mp hl)
    subst this
    rfl
  | succ k ih =>
    intro line hl hun
    rw [allTokensUnmappedB_eq] at hun
    rw [processLine_eq]
    cases hft : findToken line with
    | none => simp only [hft]
    | some ptr =>
      obtain ⟨p, t, r⟩ := ptr
      rw [hft] at hun
      simp only [Bool.and_eq_true, Option.isNone_iff_eq_none] at hun
      have hr : r.length ≤ k := by
        have := findToken_post_lt line p t r hft
        omega
      simp only [hft, hun.1]
      rw [ih r hr hun.2]
      obtain ⟨hcs, -⟩ := findToken_decomp line p t r hft
      rw [hcs]
      simp

theorem length_dropWhile_le (p : Char → Bool) :
    ∀ l : List Char, (l.dropWhile p).length ≤ l.length := by
  intro l
  induction l with
  | nil => simp
  | cons a as ih =>
    rw [List.dropWhile_cons]
    by_cases hp : p a
    · rw [if_pos hp]
      simp only [List.length_cons]
      omega
    · rw [if_neg hp]

theorem mem_of_getLast?_eq (l : List Char) (a : Char)
    (h : l.getLast? = some a) : a ∈ l := by
  induction l with
  | nil => simp at h
  | cons x xs ih =>
    cases xs with
    | nil =>
      simp at h
      simp [h]
    | cons y ys =>
      rw [List.getLast?_cons_cons] at h
      exact List.mem_cons_of_mem x (ih h)

theorem getLast?_append_ne_nil (l r : List Char) (h : r ≠ []) :
    (l ++ r).getLast? = r.getLast? := by
  rw [List.getLast?_append]
  cases hr : r.getLast? with
  | none => exact absurd (List.getLast?_eq_none_iff.mp hr) h
  | some a => rfl

theorem dropWhile_head_false (p : Char → Bool) :
    ∀ (l : List Char) (x : Char) (xs : List Char),
      l.dropWhile p = x :: xs → p x = false := by
  intro l
  induction l with
  | nil => intro x xs h; simp at h
  | cons a as ih =>
    intro x xs h
    rw [List.dropWhile_cons] at h
    by_cases hp : p a
    · rw [if_pos hp] at h
      exact ih x xs h
    · rw [if_neg hp] at h
      obtain ⟨rfl, -⟩ := List.cons.injEq .. ▸ h
      exact Bool.not_eq_true _ ▸ hp

/-- One-step unfolding of `splitLinesGo` at successor fuel. -/
theorem splitLinesGo_step (n : Nat) (c : Char) (cs : List Char) :
    splitLinesGo (n + 1) (c :: cs) =
      stripCR ((c :: cs).takeWhile (fun x => !(x == '\n')))
        :: (match (c :: cs).dropWhile (fun x => !(x == '\n')) with
            | [] => []
            | _ :: rest => splitLinesGo n rest) := rfl

theorem splitLinesGo_succ :
    ∀ (fuel : Nat) (cs : List Char), cs.length ≤ fuel →
      splitLinesGo (fuel + 1) cs = splitLinesGo fuel cs := by
  intro fuel
  induction fuel with
  | zero =>
    intro cs h
    have : cs = [] := List.length_eq_zero.mp (Nat.le_zero.mp h)
    subst this
    rfl
  | succ k ih =>
    intro cs h
    cases cs with
    | nil => rfl
    | cons c cs0 =>
      rw [splitLinesGo_step (k + 1) c cs0, splitLinesGo_step k c cs0]
      cases hd : (c :: cs0).dropWhile (fun x => !(x == '\n')) with
      | nil => simp only [hd]
      | cons d rest =>
        have hrest : rest.length ≤ k := by
          have h1 := length_dropWhile_le (fun x => !(x == '\n')) (c :: cs0)
          rw [hd] at h1
          simp only [List.length_cons] at h1 h
          omega
        simp only [hd, ih rest hrest]

theorem splitLinesGo_fuel (fuel : Nat) (cs : List Char)
    (h : cs.length ≤ fuel) : splitLinesGo fuel cs = splitLines cs := by
  obtain ⟨k, rfl⟩ : ∃ k, fuel = cs.length + k := ⟨fuel - cs.length, by omega⟩
  clear h
  induction k with
  | zero => rfl
  | succ j ih =>
    have hstep : cs.length + (j + 1) = cs.length + j + 1 := rfl
    rw [hstep, splitLinesGo_succ (cs.length + j) cs (by omega)]
    exact ih

theorem hasCRLF_cons_cons (c d : Char) (t : List Char) :
    hasCRLF (c :: d :: t) = ((c == '\r' && d == '\n') || hasCRLF (d :: t)) := rfl

theorem hasCRLF_tail (c : Char) (cs : List Char)
    (h : hasCRLF (c :: cs) = false) : hasCRLF cs = false := by
  cases cs with
  | nil => rfl
  | cons d t =>
    rw [hasCRLF_cons_cons] at h
    exact (Bool.or_eq_false_iff.mp h).2

theorem hasCRLF_suffix :
    ∀ (l r : List Char), hasCRLF (l ++ r) = false → hasCRLF r = false := by
  intro l
  induction l with
  | nil => intro r h; exact h
  | cons a l' ih =>
    intro r h
    exact ih r (hasCRLF_tail a (l' ++ r) (by simpa using h))

theorem hasCRLF_of_getLast_cr :
    ∀ (l r : List Char), l.getLast? = some '\r' →
      hasCRLF (l ++ '\n' :: r) = true := by
  intro l
  induction l with
  | nil => intro r h; simp at h
  | cons a l' ih =>
    intro r h
    cases l' with
    | nil =>
      simp at h
      subst h
      simp [hasCRLF_cons_cons]
    | cons b t =>
      rw [List.getLast?_cons_cons] at h
      have hrec : hasCRLF (b :: (t ++ '\n' :: r)) = true := by
        simpa using ih r h
      show hasCRLF (a :: b :: (t ++ '\n' :: r)) = true
      rw [hasCRLF_cons_cons, hrec]
      simp

theorem stripCR_of_not_cr (l : List Char) (h : l.getLast? ≠ some '\r') :
    stripCR l = l := by
  unfold stripCR
  split
  · rename_i heq
    exact absurd heq h
  · rfl

theorem rejoin_splitLines :
    ∀ (n : Nat) (cs : List Char), cs.length ≤ n → hasCRLF cs = false →
      (cs = [] ∨ cs.getLast? = some '\n') →
      (splitLines cs).foldr (fun l acc => l ++ '\n' :: acc) [] = cs := by
  intro n
  induction n with
  | zero =>
    intro cs h _ _
    have : cs = [] := List.length_eq_zero.mp (Nat.le_zero.mp h)
    subst this
    rfl
  | succ k ih =>
    intro cs hlen hcrlf hends
    cases cs with
    | nil => rfl
    | cons c cs0 =>
      have hends' : (c :: cs0).getLast? = some '\n' :=
        hends.resolve_left (by simp)
      have hsplit : (c :: cs0).takeWhile (fun x => !(x == '\n'))
          ++ (c :: cs0).dropWhile (fun x => !(x == '\n')) = c :: cs0 :=
        List.takeWhile_append_dropWhile (p := fun x => !(x == '\n'))
          (l := c :: cs0)
      cases hd : (c :: cs0).dropWhile (fun x => !(x == '\n')) with
      | nil =>
        exfalso
        have hmem : '\n' ∈ (c :: cs0) := mem_of_getLast?_eq _ _ hends'
        rw [← hsplit, hd, List.append_nil] at hmem
        have := List.mem_takeWhile_imp hmem
        simp at this
      | cons d rest =>
        have hdP : (fun x => !(x == '\n')) d = false :=
          dropWhile_head_false _ (c :: cs0) d rest hd
        have hdlf : d = '\n' := by simpa using hdP
        subst hdlf
        have hrest_len : rest.length ≤ k := by
          have h1 := length_dropWhile_le (fun x => !(x == '\n')) (c :: cs0)
          rw [hd] at h1
          simp only [List.length_cons] at h1 hlen
          omega
        have hrest_le : rest.length ≤ cs0.length := by
          have h1 := length_dropWhile_le (fun x => !(x == '\n')) (c :: cs0)
          rw [hd] at h1
          simp only [List.length_cons] at h1
          omega
        have hsl : splitLines (c :: cs0)
            = stripCR ((c :: cs0).takeWhile (fun x => !(x == '\n')))
              :: splitLines rest := by
          show splitLinesGo (cs0.length + 1) (c :: cs0) = _
          rw [splitLinesGo_step]
          simp only [hd, splitLinesGo_fuel cs0.length rest hrest_le]
        have hcrlf' : hasCRLF ((c :: cs0).takeWhile (fun x => !(x == '\n'))
            ++ '\n' :: rest) = false := by
          rw [← hsplit, hd] at hcrlf
          exact hcrlf
        have hstrip : stripCR ((c :: cs0).takeWhile (fun x => !(x == '\n')))
            = (c :: cs0).takeWhile (fun x => !(x == '\n')) := by
          apply stripCR_of_not_cr
          intro hcr
          rw [hasCRLF_of_getLast_cr _ rest hcr] at hcrlf'
          simp at hcrlf'
        have hcr_rest : hasCRLF rest = false :=
          hasCRLF_tail '\n' rest (hasCRLF_suffix _ _ hcrlf')
        have hends_rest : rest = [] ∨ rest.getLast? = some '\n' := by
          cases rest with
          | nil => exact Or.inl rfl
          | cons e t =>
            right
            rw [← hsplit, hd] at hends'
            rw [getLast?_append_ne_nil _ _ (by simp)] at hends'
            rw [List.getLast?_cons_cons] at hends'
            exact hends'
        rw [hsl, hstrip]
        simp only [List.foldr_cons]
        rw [ih rest hrest_len hcr_rest hends_rest]
        conv_rhs => rw [← hsplit, hd]

theorem processLine_getLast (fs : FileSys)
    (m : List (List Char × TextTemplate)) :
    ∀ (n : Nat) (line : List Char), line.length ≤ n →
      (processLine fs m line).getLast? = some '\n' := by
  intro n
  induction n with
  | zero =>
    intro line h
    have : line = [] := List.length_eq_zero.mp (Nat.le_zero.mp h)
    subst this
    rfl
  | succ k ih =>
    intro line hl
    rw [processLine_eq]
    cases hft : findToken line with
    | none =>
      simp only [hft]
      simp [List.getLast?_append]
    | some ptr =>
      obtain ⟨p, t, r⟩ := ptr
      have hr : r.length ≤ k := by
        have := findToken_post_lt line p t r hft
        omega
      have hrec := ih r hr
      simp only [hft]
      cases hl2 : lookupTpl m t with
      | none => simp [List.getLast?_append, hrec]
      | some tpl =>
        simp only [hl2]
        cases hv : resolveValue fs tpl with
        | none => simpa [hv] using hrec
        | some v => simp [hv, List.getLast?_append, hrec]

theorem replaceTextTemplate_ends (fs : FileSys)
    (m : List (List Char × TextTemplate)) (content : List Char) :
    replaceTextTemplate fs m content = []
      ∨ (replaceTextTemplate fs m content).getLast? = some '\n' := by
  unfold replaceTextTemplate
  generalize splitLines content = ls
  induction ls with
  | nil => exact Or.inl rfl
  | cons l ls ih =>
    right
    simp only [List.foldr_cons]
    cases ih with
    | inl h =>
      rw [h, List.append_nil]
      exact processLine_getLast fs m l.length l le_rfl
    | inr h => simp [List.getLast?_append, h]

/-- C4 counterexample inputs: both mapped values are free of template
tokens, yet substituting `###T_A###` re-forms the mapped token
`###T_B###` against the trailing `###` of the line. -/
def c4Mappings : List (List Char × TextTemplate) :=
  [("###T_A###".data, ⟨false, false, VarType.raw, "###T_B".data⟩),
   ("###T_B###".data, ⟨false, false, VarType.raw, "x".data⟩)]

/-- C4 counterexample: with mappings whose values contain no template
token, one pass over `###T_A######` yields `###T_B###`, and a second pass
rewrites that to `x` — the substitution is not a fixed point after one
pass. -/
theorem replaceTextTemplate_not_fixed_point :
    (findToken "###T_B".data = none ∧ findToken "x".data = none)
    ∧ replaceTextTemplate [] c4Mappings "###T_A######\n".data
        = "###T_B###\n".data
    ∧ replaceTextTemplate [] c4Mappings
        (replaceTextTemplate [] c4Mappings "###T_A######\n".data)
        = "x\n".data
    ∧ replaceTextTemplate [] c4Mappings
        (replaceTextTemplate [] c4Mappings "###T_A######\n".data)
        ≠ replaceTextTemplate [] c4Mappings "###T_A######\n".data := by
  refine ⟨⟨by decide, by decide⟩, by decide, by decide, by decide⟩

/-- C4 amended: `ReplaceTextTemplate` re-emits every matched template token
without a mapping entry literally; and one pass is a fixed point provided
the first pass's output contains no mapped template token on any line and
no carriage-return-before-newline (substituted values may otherwise
re-form tokens, and a rescan normalizes `\r\n`). -/
theorem replaceTextTemplate_unmapped_and_fixed_point
    (fs : FileSys) (m : List (List Char × TextTemplate)) :
    (∀ line pre tok post : List Char,
      findToken line = some (pre, tok, post) → lookupTpl m tok = none →
      processLine fs m line = pre ++ tok ++ processLine fs m post)
    ∧ (∀ content : List Char,
      (∀ l ∈ splitLines (replaceTextTemplate fs m content),
        allTokensUnmappedB m l = true) →
      hasCRLF (replaceTextTemplate fs m content) = false →
      replaceTextTemplate fs m (replaceTextTemplate fs m content)
        = replaceTextTemplate fs m content) := by
  constructor
  · intro line pre tok post hft hlk
    rw [processLine_eq]
    simp only [hft, hlk]
  · intro content h1 h2
    have hends := replaceTextTemplate_ends fs m content
    set out := replaceTextTemplate fs m content with hout
    show (splitLines out).foldr (fun l acc => processLine fs m l ++ acc) [] = out
    have hfold : ∀ ls : List (List Char),
        (∀ l ∈ ls, allTokensUnmappedB m l = true) →
        ls.foldr (fun l acc => processLine fs m l ++ acc) []
          = ls.foldr (fun l acc => l ++ '\n' :: acc) [] := by
      intro ls
      induction ls with
      | nil => intro; rfl
      | cons l ls ih =>
        intro hmem
        simp only [List.foldr_cons]
        rw [processLine_of_unmapped fs m l.length l le_rfl
            (hmem l (List.mem_cons_self l ls)),
          ih (fun x hx => hmem x (List.mem_cons_of_mem l hx))]
        simp
    rw [hfold (splitLines out) h1]
    exact rejoin_splitLines out.length out le_rfl h2 hends

/-- Witness for C4: a mapping whose substitution leaves no mapped token
behind is a fixed point of a second pass. -/
theorem replaceTextTemplate_fixed_point_witness :
    replaceTextTemplate []
        [("###T_X###".data, ⟨false, false, VarType.raw, "v".data⟩)]
        (replaceTextTemplate []
          [("###T_X###".data, ⟨false, false, VarType.raw, "v".data⟩)]
          "###T_X### hi\n".data)
      = replaceTextTemplate []
          [("###T_X###".data, ⟨false, false, VarType.raw, "v".data⟩)]
          "###T_X### hi\n".data :=
  (replaceTextTemplate_unmapped_and_fixed_point []
      [("###T_X###".data, ⟨false, false, VarType.raw, "v".data⟩)]).2
    "###T_X### hi\n".data (by decide) (by decide)

/-- The file system and mappings of the specification's template-file-type
scenario: variable `REPLACE_ME` of type file pointing at `notes.txt`
(contents `hello\nworld`), with autoindent set. -/
def c5FileSys : FileSys := [("notes.txt".data, (true, "hello\nworld".data))]

/-- The mapping of the C5 scenario. -/
def c5Mappings : List (List Char × TextTemplate) :=
  [("###PKG_TMPL_REPLACE_ME###".data,
    ⟨false, true, VarType.file, "notes.txt".data⟩)]

/-- C5 counterexample: on the source line
`  Msg: ###PKG_TMPL_REPLACE_ME###` the code indents the second value line
with seven spaces — `len("  Msg: ")` — not with the two spaces of
whitespace that precede the token, so the claimed rendering
`  Msg: hello\n  world` is not produced. -/
theorem autoIndent_render_ne_claim :
    replaceTextTemplate c5FileSys c5Mappings
        "  Msg: ###PKG_TMPL_REPLACE_ME###\n".data
      ≠ "  Msg: hello\n  world\n".data := by
  decide

/-- C5 amended: with autoindent set, every newline of the (possibly
file-loaded) value is replaced by a newline followed by one space per
character of the full text preceding the token on its line; the
specification's file-type example hence renders as `  Msg: hello` followed
by `       world` under seven spaces. -/
theorem autoIndent_uses_pre_length (fs : FileSys)
    (m : List (List Char × TextTemplate)) :
    (∀ (line pre tok post : List Char) (tpl : TextTemplate) (v : List Char),
      findToken line = some (pre, tok, post) →
      lookupTpl m tok = some tpl → resolveValue fs tpl = some v →
      tpl.autoIndent = true →
      processLine fs m line
        = pre ++ autoIndentValue pre.length v ++ processLine fs m post)
    ∧ replaceTextTemplate c5FileSys c5Mappings
        "  Msg: ###PKG_TMPL_REPLACE_ME###\n".data
      = "  Msg: hello\n       world\n".data := by
  constructor
  · intro line pre tok post tpl v hft hlk hv hai
    rw [processLine_eq]
    simp only [hft, hlk, hv, hai, if_true]
  · decide

/-- Witness for C5: the general autoindent equation applied to the
specification's example line. -/
theorem autoIndent_uses_pre_length_witness :
    processLine c5FileSys c5Mappings "  Msg: ###PKG_TMPL_REPLACE_ME###".data
      = "  Msg: ".data
        ++ autoIndentValue "  Msg: ".data.length "hello\nworld".data
        ++ processLine c5FileSys c5Mappings [] :=
  (autoIndent_uses_pre_length c5FileSys c5Mappings).1
    "  Msg: ###PKG_TMPL_REPLACE_ME###".data "  Msg: ".data
    "###PKG_TMPL_REPLACE_ME###".data [] ⟨false, true, VarType.file, "notes.txt".data⟩
    "hello\nworld".data (by decide) (by decide) (by decide) rfl

/-! ### C9 and C10 -/

/-- C9: `PackageSecretNeedsWait` returns `(false, 0, "")` whenever the record
is `nil`, `skipWebhooks` is set, or the embedded metadata has the YOLO flag:
a YOLO package never blocks on a webhook wait. -/
theorem needsWait_false_of_skip_nil_or_yolo
    (deployedPackage : Option DeployedPackage) (componentName : String)
    (skipWebhooks : Bool)
    (h : skipWebhooks = true ∨ deployedPackage = none ∨
      ∃ p, deployedPackage = some p ∧ p.data.metadata.yolo = true) :
    packageSecretNeedsWait deployedPackage componentName skipWebhooks
      = (false, 0, "") := by
  rcases h with h | h | ⟨p, hp, hy⟩
  · cases deployedPackage with
    | none => rfl
    | some p => simp [packageSecretNeedsWait, h]
  · simp [packageSecretNeedsWait, h]
  · simp [packageSecretNeedsWait, hp, hy]

/-- Witness for C9: a concrete YOLO record with a running webhook still
reports that no wait is needed. -/
theorem needsWait_false_of_skip_nil_or_yolo_witness :
    packageSecretNeedsWait
      (some { name := "p1", cliVersion := "v0.29", data := ⟨⟨"p1", true⟩⟩,
              deployedComponents := [], connectStrings := [], generation := 1,
              componentWebhooks := [("c", [("hook", ⟨WebhookStatus.running, 30⟩)])] })
      "c" false = (false, 0, "") :=
  needsWait_false_of_skip_nil_or_yolo _ "c" false
    (Or.inr (Or.inr ⟨_, rfl, rfl⟩))

/-- A deployment record whose component `c` has a webhook stuck in the
`running` state; used to exercise the webhook-wait loop. -/
def runningHookRecord : DeployedPackage :=
  { name := "p1", cliVersion := "v0.29", data := ⟨⟨"p1", false⟩⟩,
    deployedComponents := [], connectStrings := [], generation := 2,
    componentWebhooks := [("c", [("test-hook", ⟨WebhookStatus.running, 300⟩)])] }

/-- C8: at a concrete deployment whose webhook for component `c` is
`running` — and stays `running` on every re-fetch —
`RecordPackageDeploymentAndWait` nevertheless returns success after the
first poll tick, because the poll body reports done on both branches.  The
returned record still needs a wait, contradicting both the specification's
webhook-wait loop and the function's own doc comment ("waits for any
webhooks to complete"). -/
theorem recordAndWait_succeeds_while_webhook_running :
    recordPackageDeploymentAndWait (some runningHookRecord) "v0.29"
        ⟨⟨"p1", false⟩⟩ [] 3 "c" false (fun _ => runningHookRecord) 300
      = .ok runningHookRecord
    ∧ (packageSecretNeedsWait (some runningHookRecord) "c" false).1 = true := by
  constructor
  · rfl
  · rfl

/-! ### C6 -/

theorem hexFold_length (bs : List Nat) :
    (bs.foldr (fun b acc =>
      hexDigit (b / 16 % 16) :: hexDigit (b % 16) :: acc)
      []).length = 2 * bs.length := by
  induction bs with
  | nil => rfl
  | cons b bs ih =>
    simp only [List.foldr_cons, List.length_cons]
    rw [ih]
    omega

theorem hexEncode_data_length (bs : List Nat) :
    (hexEncode bs).data.length = 2 * bs.length := by
  simpa [hexEncode] using hexFold_length bs

theorem sha1_length (msg : List Nat) : (sha1 msg).length = 20 := by
  simp [sha1, toBytesBE]

theorem sha1Hex_data_length (s : String) : (sha1Hex s).data.length = 40 := by
  rw [sha1Hex, hexEncode_data_length, sha1_length]

theorem string_mk_data (s : String) : String.mk s.data = s := by
  cases s
  rfl

set_option maxRecDepth 100000 in
/-- C6 counterexample: for the raw manifest `m1` of component `deploy` in
package `podinfo`, the release name produced by the code is not the first
40 hex characters of the SHA-1 of the chart name — the code prefixes the
digest with `zarf-`. -/
theorem releaseName_ne_claim :
    releaseName "podinfo" "deploy" "m1"
      ≠ claimReleaseName "podinfo" "deploy" "m1" := by
  decide

/-- C6 amended: the chart name is `raw-<pkg>-<component>-<manifest-name>`,
and the release name is `zarf-` followed by the first 40 hex characters
(that is, all) of the SHA-1 of the chart name. -/
theorem releaseName_is_prefixed_sha1 (p c m : String) :
    rawChartName p c m = "raw-" ++ p ++ "-" ++ c ++ "-" ++ m ∧
    releaseName p c m = "zarf-" ++ claimReleaseName p c m := by
  refine ⟨rfl, ?_⟩
  have h40 : (sha1Hex (rawChartName p c m)).data.length = 40 :=
    sha1Hex_data_length _
  have : claimReleaseName p c m = sha1Hex (rawChartName p c m) := by
    unfold claimReleaseName firstForty
    rw [List.take_of_length_le (le_of_eq h40), string_mk_data]
  rw [this]
  rfl

/-- C10: `RecordPackageDeployment` carries the `ComponentWebhooks` map of an
existing record over unchanged, while every other field of the new record is
computed solely from the arguments (`pkg`, `components`, `generation`, the
CLI version) — in particular independently of the existing record. -/
theorem recordPackageDeployment_frame (existing : Option DeployedPackage)
    (cliVersion : String) (pkg : ZarfPackageData)
    (components : List DeployedComponent) (generation : Nat) :
    recordPackageDeployment existing cliVersion pkg components generation
      = { name := pkg.metadata.name
          cliVersion := cliVersion
          data := pkg
          deployedComponents := components
          connectStrings := mergeConnectStrings components
          generation := generation
          componentWebhooks :=
            (existing.map (fun e => e.componentWebhooks)).getD [] } := by
  cases existing <;> rfl

end Zarf
